import Mathlib

/-!
# Verification of the `EmbeddingService` layer

A shallow embedding, in Lean 4, of the embedding cache-and-resilience layer
(`EmbeddingService`): content-addressable embedding cache, token-budget
batching, retry-with-backoff, batch orchestration with custom-ID
reconciliation, and the batch circuit breaker.

Modelling conventions:
* vectors of floats are modelled abstractly as `List Int` (`Vec`); no claim
  depends on the numeric contents of a vector beyond (non-)emptiness;
* the SQLite table backing the cache is modelled as a `List CacheRow`;
  a `SELECT ... WHERE key = ...` is a `List.filter`, the
  `INSERT ... ON CONFLICT DO UPDATE` is `upsertRow`, and `BEGIN/COMMIT/ROLLBACK`
  are modelled on a `Db` structure holding a committed state and an optional
  open-transaction state;
* asynchronous provider calls are modelled by their outcome: a deterministic
  provider is a function `String → Vec` over chunk text, a fallible call is a
  function from the attempt number to an outcome;
* `JSON.stringify`/`parseEmbedding` round-tripping of a vector through the
  `embedding` text column is assumed faithful, so the model stores the
  vector itself in the row.
-/

namespace Clawdbot

/-- Embedding vectors, abstracted. -/
abbrev Vec := List Int

/-- A unit of source text to embed (`MemoryChunk` from `internal.js`). -/
structure MemoryChunk where
  text : String
  hash : String
  startLine : Nat
  endLine : Nat
deriving Repr, DecidableEq

/-- `EMBEDDING_BATCH_MAX_TOKENS` -/
def EMBEDDING_BATCH_MAX_TOKENS : Nat := 8000

/-- `EMBEDDING_APPROX_CHARS_PER_TOKEN` -/
def EMBEDDING_APPROX_CHARS_PER_TOKEN : Nat := 1

/-- `EMBEDDING_RETRY_MAX_ATTEMPTS` -/
def EMBEDDING_RETRY_MAX_ATTEMPTS : Nat := 3

/-- `BATCH_FAILURE_LIMIT` -/
def BATCH_FAILURE_LIMIT : Nat := 2

/-- `estimateEmbeddingTokens`: `Math.ceil(text.length / EMBEDDING_APPROX_CHARS_PER_TOKEN)`,
with the `!text` guard returning 0 for the empty string. -/
def estimateEmbeddingTokens (text : String) : Nat :=
  if text.isEmpty then 0
  else (text.length + (EMBEDDING_APPROX_CHARS_PER_TOKEN - 1)) / EMBEDDING_APPROX_CHARS_PER_TOKEN

/-- Loop body of `buildEmbeddingBatches`: iterate the chunks carrying the
accumulated `batches`, the open bin `current` and its token sum `currentTokens`.
The control flow mirrors the source: when `wouldExceed` the open bin is flushed
and the chunk is then considered against an empty bin (so the oversized check
`current.length === 0 && estimate > MAX` reduces to `estimate > MAX` there);
an oversized chunk becomes a singleton bin, otherwise the chunk is appended
to the open bin. -/
def buildGo : List MemoryChunk → List (List MemoryChunk) → List MemoryChunk → Nat →
    List (List MemoryChunk)
  | [], batches, current, _ =>
    if 0 < current.length then batches ++ [current] else batches
  | chunk :: rest, batches, current, currentTokens =>
    let estimate := estimateEmbeddingTokens chunk.text
    if 0 < current.length ∧ EMBEDDING_BATCH_MAX_TOKENS < currentTokens + estimate then
      -- `wouldExceed`: flush `current`; the new open bin is empty
      if EMBEDDING_BATCH_MAX_TOKENS < estimate then
        buildGo rest (batches ++ [current] ++ [[chunk]]) [] 0
      else
        buildGo rest (batches ++ [current]) [chunk] estimate
    else
      if current.length = 0 ∧ EMBEDDING_BATCH_MAX_TOKENS < estimate then
        buildGo rest (batches ++ [[chunk]]) [] 0
      else
        buildGo rest batches (current ++ [chunk]) (currentTokens + estimate)

/-- `buildEmbeddingBatches` -/
def buildEmbeddingBatches (chunks : List MemoryChunk) : List (List MemoryChunk) :=
  buildGo chunks [] [] 0

/-- Summed token estimate of a bin. -/
def sumTokens (bin : List MemoryChunk) : Nat :=
  (bin.map (fun c => estimateEmbeddingTokens c.text)).sum

/-- A bin is well-formed when its summed estimate fits the budget, or it is a
singleton holding a chunk whose own estimate exceeds the budget. -/
def GoodBin (bin : List MemoryChunk) : Prop :=
  sumTokens bin ≤ EMBEDDING_BATCH_MAX_TOKENS ∨
    ∃ c, bin = [c] ∧ EMBEDDING_BATCH_MAX_TOKENS < estimateEmbeddingTokens c.text

theorem sumTokens_append (a b : List MemoryChunk) :
    sumTokens (a ++ b) = sumTokens a + sumTokens b := by
  simp [sumTokens]

theorem buildGo_join (l : List MemoryChunk) (batches : List (List MemoryChunk))
    (current : List MemoryChunk) (t : Nat) :
    (buildGo l batches current t).flatten = batches.flatten ++ current ++ l := by
  induction l generalizing batches current t with
  | nil =>
    by_cases h : 0 < current.length
    · simp [buildGo, h]
    · have : current = [] := by
        cases current with
        | nil => rfl
        | cons a as => simp at h
      simp [buildGo, h, this]
  | cons c rest ih =>
    simp only [buildGo]
    by_cases hw : 0 < current.length ∧
        EMBEDDING_BATCH_MAX_TOKENS < t + estimateEmbeddingTokens c.text
    · rw [if_pos hw]
      by_cases hs : EMBEDDING_BATCH_MAX_TOKENS < estimateEmbeddingTokens c.text
      · rw [if_pos hs, ih]; simp
      · rw [if_neg hs, ih]; simp
    · rw [if_neg hw]
      by_cases hs : current.length = 0 ∧
          EMBEDDING_BATCH_MAX_TOKENS < estimateEmbeddingTokens c.text
      · have hc : current = [] := by
          cases current with
          | nil => rfl
          | cons a as => simp at hs
        rw [if_pos hs, ih]; simp [hc]
      · rw [if_neg hs, ih]; simp

theorem buildEmbeddingBatches_flatten (chunks : List MemoryChunk) :
    (buildEmbeddingBatches chunks).flatten = chunks := by
  simpa using buildGo_join chunks [] [] 0

theorem buildGo_good (l : List MemoryChunk) (batches : List (List MemoryChunk))
    (current : List MemoryChunk) (t : Nat)
    (hb : ∀ b ∈ batches, GoodBin b)
    (ht : t = sumTokens current)
    (hcur : sumTokens current ≤ EMBEDDING_BATCH_MAX_TOKENS) :
    ∀ b ∈ buildGo l batches current t, GoodBin b := by
  induction l generalizing batches current t with
  | nil =>
    intro b hbmem
    by_cases h : 0 < current.length
    · simp only [buildGo, if_pos h, List.mem_append, List.mem_singleton] at hbmem
      rcases hbmem with h1 | h2
      · exact hb b h1
      · subst h2; exact Or.inl hcur
    · simp only [buildGo, if_neg h] at hbmem
      exact hb b hbmem
  | cons c rest ih =>
    intro b hbmem
    simp only [buildGo] at hbmem
    by_cases hw : 0 < current.length ∧
        EMBEDDING_BATCH_MAX_TOKENS < t + estimateEmbeddingTokens c.text
    · -- the open bin is flushed
      rw [if_pos hw] at hbmem
      by_cases hs : EMBEDDING_BATCH_MAX_TOKENS < estimateEmbeddingTokens c.text
      · rw [if_pos hs] at hbmem
        refine ih _ _ _ ?_ ?_ ?_ b hbmem
        · intro b' hb'
          simp only [List.append_assoc, List.mem_append, List.mem_singleton] at hb'
          rcases hb' with h1 | h2 | h3
          · exact hb b' h1
          · subst h2; exact Or.inl hcur
          · subst h3; exact Or.inr ⟨c, rfl, hs⟩
        · simp [sumTokens]
        · simp [sumTokens]
      · rw [if_neg hs] at hbmem
        have hest : estimateEmbeddingTokens c.text ≤ EMBEDDING_BATCH_MAX_TOKENS :=
          Nat.le_of_not_lt hs
        refine ih _ _ _ ?_ ?_ ?_ b hbmem
        · intro b' hb'
          simp only [List.mem_append, List.mem_singleton] at hb'
          rcases hb' with h1 | h2
          · exact hb b' h1
          · subst h2; exact Or.inl hcur
        · simp [sumTokens]
        · simpa [sumTokens] using hest
    · -- no flush: the chunk joins the open bin, or becomes a singleton
      rw [if_neg hw] at hbmem
      by_cases hs : current.length = 0 ∧
          EMBEDDING_BATCH_MAX_TOKENS < estimateEmbeddingTokens c.text
      · rw [if_pos hs] at hbmem
        refine ih _ _ _ ?_ ?_ ?_ b hbmem
        · intro b' hb'
          simp only [List.mem_append, List.mem_singleton] at hb'
          rcases hb' with h1 | h2
          · exact hb b' h1
          · subst h2; exact Or.inr ⟨c, rfl, hs.2⟩
        · simp [sumTokens]
        · simp [sumTokens, EMBEDDING_BATCH_MAX_TOKENS]
      · rw [if_neg hs] at hbmem
        refine ih _ _ _ hb ?_ ?_ b hbmem
        · rw [sumTokens_append, ht]; simp [sumTokens]
        · -- the new bin still fits the budget
          rw [sumTokens_append]
          rcases Nat.eq_zero_or_pos current.length with hz | hp
          · have hc : current = [] := List.eq_nil_of_length_eq_zero hz
            have hest : estimateEmbeddingTokens c.text ≤ EMBEDDING_BATCH_MAX_TOKENS := by
              by_contra hgt
              exact hs ⟨hz, Nat.lt_of_not_le hgt⟩
            simpa [hc, sumTokens] using hest
          · have hnlt : ¬ (EMBEDDING_BATCH_MAX_TOKENS < t + estimateEmbeddingTokens c.text) :=
              fun hlt => hw ⟨hp, hlt⟩
            have hfit : t + estimateEmbeddingTokens c.text ≤ EMBEDDING_BATCH_MAX_TOKENS :=
              Nat.le_of_not_lt hnlt
            calc sumTokens current + sumTokens [c]
                = t + estimateEmbeddingTokens c.text := by rw [ht]; simp [sumTokens]
              _ ≤ EMBEDDING_BATCH_MAX_TOKENS := hfit

/-- **C4.** `buildEmbeddingBatches` partitions its input: the concatenation of the
returned bins equals the input sequence (order preserved across and within
bins); every bin's summed token estimate is at most `EMBEDDING_BATCH_MAX_TOKENS`
(8000) unless the bin is a singleton holding one chunk whose own estimate
exceeds the budget; and every chunk whose own estimate exceeds the budget
sits alone in its bin. -/
theorem buildEmbeddingBatches_spec (chunks : List MemoryChunk) :
    (buildEmbeddingBatches chunks).flatten = chunks ∧
    (∀ b ∈ buildEmbeddingBatches chunks, GoodBin b) ∧
    (∀ b ∈ buildEmbeddingBatches chunks, ∀ c ∈ b,
      EMBEDDING_BATCH_MAX_TOKENS < estimateEmbeddingTokens c.text → b = [c]) := by
  have hjoin : (buildEmbeddingBatches chunks).flatten = chunks :=
    buildEmbeddingBatches_flatten chunks
  have hgood : ∀ b ∈ buildEmbeddingBatches chunks, GoodBin b := by
    refine buildGo_good chunks [] [] 0 ?_ ?_ ?_
    · intro b hb; simp at hb
    · simp [sumTokens]
    · simp [sumTokens, EMBEDDING_BATCH_MAX_TOKENS]
  refine ⟨hjoin, hgood, ?_⟩
  intro b hb c hc hbig
  rcases hgood b hb with hle | ⟨c', hb', _⟩
  · exfalso
    have hmem : estimateEmbeddingTokens c.text ∈
        b.map (fun c => estimateEmbeddingTokens c.text) :=
      List.mem_map.mpr ⟨c, hc, rfl⟩
    have : estimateEmbeddingTokens c.text ≤ sumTokens b :=
      List.single_le_sum (by intro x _; exact Nat.zero_le x) _ hmem
    omega
  · subst hb'
    simp only [List.mem_singleton] at hc
    subst hc; rfl

/-! ## Embedding cache store -/

/-- One row of the `embedding_cache` table. -/
structure CacheRow where
  provider : String
  model : String
  providerKey : String
  hash : String
  embedding : Vec
  dims : Nat
  updatedAt : Nat
deriving Repr, DecidableEq

/-- The unique key `(provider, model, provider_key, hash)` of the table. -/
def keyMatches (r : CacheRow) (pid pmodel pkey h : String) : Prop :=
  r.provider = pid ∧ r.model = pmodel ∧ r.providerKey = pkey ∧ r.hash = h

instance (r : CacheRow) (pid pmodel pkey h : String) :
    Decidable (keyMatches r pid pmodel pkey h) := by
  unfold keyMatches; infer_instance

/-- `INSERT ... ON CONFLICT(provider, model, provider_key, hash) DO UPDATE SET
embedding, dims, updated_at` against the row list. -/
def upsertRow (store : List CacheRow) (row : CacheRow) : List CacheRow :=
  if store.any (fun r => decide (keyMatches r row.provider row.model row.providerKey row.hash)) then
    store.map (fun r =>
      if keyMatches r row.provider row.model row.providerKey row.hash then
        { r with embedding := row.embedding, dims := row.dims, updatedAt := row.updatedAt }
      else r)
  else store ++ [row]

/-- `loadEmbeddingCache`, as the lookup function it produces: the requested
`hashes` are deduplicated with empty hashes skipped, and the matching rows are
read into a map in which a later row overwrites an earlier one (`out.set`).
The chunked `IN (...)` queries (400 keys each) only affect how many statements
run, not the resulting map, so the model filters the row list directly. -/
def loadEmbeddingCache (cacheEnabled : Bool) (store : List CacheRow)
    (pid pmodel pkey : String) (hashes : List String) : String → Option Vec :=
  fun h =>
    if cacheEnabled = false then none
    else if h = "" then none
    else if ¬ h ∈ hashes then none
    else ((store.filter (fun r => decide (keyMatches r pid pmodel pkey h))).map
      (fun r => r.embedding)).getLast?

/-- `upsertEmbeddingCache`: one upsert per entry, all at the same timestamp,
storing the vector and its length as `dims`. An empty vector is stored like
any other (`entry.embedding ?? []`). -/
def upsertEmbeddingCache (cacheEnabled : Bool) (pid pmodel pkey : String) (now : Nat)
    (store : List CacheRow) (entries : List (String × Vec)) : List CacheRow :=
  if cacheEnabled = false then store
  else if entries.length = 0 then store
  else entries.foldl
    (fun s e => upsertRow s ⟨pid, pmodel, pkey, e.1, e.2, e.2.length, now⟩) store

/-! ## Cache-hit classification

The loop

```ts
for (let i = 0; i < chunks.length; i += 1) {
  const chunk = chunks[i];
  const hit = chunk?.hash ? cached.get(chunk.hash) : undefined;
  if (hit && hit.length > 0) { embeddings[i] = hit; }
  else if (chunk) { missing.push({ index: i, chunk }); }
}
```

appears verbatim in `embedChunksInBatches`, `embedChunksWithOpenAiBatch` and
`embedChunksWithGeminiBatch`; it is modelled once as `classifyGo`. -/

/-- `const hit = chunk?.hash ? cached.get(chunk.hash) : undefined` -/
def hitOf (cached : String → Option Vec) (c : MemoryChunk) : Option Vec :=
  if c.hash ≠ "" then cached c.hash else none

/-- `hit && hit.length > 0` -/
def isHit (cached : String → Option Vec) (c : MemoryChunk) : Bool :=
  match hitOf cached c with
  | some v => decide (0 < v.length)
  | none => false

/-- The classification loop: fill cache hits into the pre-allocated
`embeddings` array and collect the misses as `(index, chunk)` pairs. -/
def classifyGo (cached : String → Option Vec) :
    List MemoryChunk → Nat → List Vec → List (Nat × MemoryChunk) →
    List Vec × List (Nat × MemoryChunk)
  | [], _, emb, miss => (emb, miss)
  | c :: rest, i, emb, miss =>
    match hitOf cached c with
    | some v =>
      if 0 < v.length then classifyGo cached rest (i + 1) (emb.set i v) miss
      else classifyGo cached rest (i + 1) emb (miss ++ [(i, c)])
    | none => classifyGo cached rest (i + 1) emb (miss ++ [(i, c)])

/-- Specification of the misses collected by `classifyGo` starting at index `i`. -/
def missOf (cached : String → Option Vec) : List MemoryChunk → Nat → List (Nat × MemoryChunk)
  | [], _ => []
  | c :: rest, i =>
    if isHit cached c then missOf cached rest (i + 1)
    else (i, c) :: missOf cached rest (i + 1)

/-- Specification of the hits filled by `classifyGo` starting at index `i`. -/
def hitsOf (cached : String → Option Vec) : List MemoryChunk → Nat → List (Nat × Vec)
  | [], _ => []
  | c :: rest, i =>
    match hitOf cached c with
    | some v =>
      if 0 < v.length then (i, v) :: hitsOf cached rest (i + 1)
      else hitsOf cached rest (i + 1)
    | none => hitsOf cached rest (i + 1)

/-- Apply a list of positional updates with `List.set`, in order. -/
def setMany (init : List Vec) (upds : List (Nat × Vec)) : List Vec :=
  upds.foldl (fun acc p => acc.set p.1 p.2) init

@[simp] theorem setMany_nil (init : List Vec) : setMany init [] = init := rfl

theorem setMany_cons (init : List Vec) (p : Nat × Vec) (upds : List (Nat × Vec)) :
    setMany init (p :: upds) = setMany (init.set p.1 p.2) upds := rfl

theorem setMany_append (init : List Vec) (u w : List (Nat × Vec)) :
    setMany init (u ++ w) = setMany (setMany init u) w := by
  simp [setMany, List.foldl_append]

@[simp] theorem setMany_length (init : List Vec) (upds : List (Nat × Vec)) :
    (setMany init upds).length = init.length := by
  induction upds generalizing init with
  | nil => rfl
  | cons p rest ih => simp [setMany_cons, ih]

theorem setMany_getElem_not_mem (init : List Vec) (upds : List (Nat × Vec)) (j : Nat)
    (h : ∀ p ∈ upds, p.1 ≠ j) :
    (setMany init upds)[j]? = init[j]? := by
  induction upds generalizing init with
  | nil => rfl
  | cons p rest ih =>
    rw [setMany_cons, ih _ (fun q hq => h q (List.mem_cons_of_mem p hq))]
    exact List.getElem?_set_ne (h p (List.mem_cons_self p rest))

theorem setMany_getElem_mem (init : List Vec) (upds : List (Nat × Vec)) (j : Nat) (v : Vec)
    (hnd : (upds.map Prod.fst).Nodup) (hmem : (j, v) ∈ upds) (hj : j < init.length) :
    (setMany init upds)[j]? = some v := by
  induction upds generalizing init with
  | nil => simp at hmem
  | cons p rest ih =>
    rcases List.mem_cons.mp hmem with heq | htail
    · subst heq
      rw [setMany_cons]
      have hrest : ∀ q ∈ rest, q.1 ≠ j := by
        intro q hq
        have := (List.nodup_cons.mp hnd).1
        intro hqj
        exact this (by simpa [hqj] using List.mem_map_of_mem Prod.fst hq)
      rw [setMany_getElem_not_mem _ _ _ hrest]
      simp [List.getElem?_set_self', hj]
    · rw [setMany_cons]
      exact ih _ (List.nodup_cons.mp hnd).2 htail (by simpa using hj)

theorem classifyGo_snd (cached : String → Option Vec) (l : List MemoryChunk) (i : Nat)
    (emb : List Vec) (miss : List (Nat × MemoryChunk)) :
    (classifyGo cached l i emb miss).2 = miss ++ missOf cached l i := by
  induction l generalizing i emb miss with
  | nil => simp [classifyGo, missOf]
  | cons c rest ih =>
    simp only [classifyGo]
    split
    · rename_i v heq
      by_cases hv : 0 < v.length
      · rw [if_pos hv, ih]
        simp [missOf, isHit, heq, hv]
      · rw [if_neg hv, ih]
        simp [missOf, isHit, heq, hv]
    · rename_i heq
      rw [ih]
      simp [missOf, isHit, heq]

theorem classifyGo_fst (cached : String → Option Vec) (l : List MemoryChunk) (i : Nat)
    (emb : List Vec) (miss : List (Nat × MemoryChunk)) :
    (classifyGo cached l i emb miss).1 = setMany emb (hitsOf cached l i) := by
  induction l generalizing i emb miss with
  | nil => simp [classifyGo, hitsOf]
  | cons c rest ih =>
    simp only [classifyGo]
    split
    · rename_i v heq
      by_cases hv : 0 < v.length
      · rw [if_pos hv, ih]
        simp only [hitsOf, heq, if_pos hv, setMany_cons]
      · rw [if_neg hv, ih]
        simp only [hitsOf, heq, if_neg hv]
    · rename_i heq
      rw [ih]
      simp only [hitsOf, heq]

theorem missOf_mem_iff (cached : String → Option Vec) (l : List MemoryChunk) (i j : Nat)
    (c : MemoryChunk) :
    (j, c) ∈ missOf cached l i ↔
      ∃ k, j = i + k ∧ l[k]? = some c ∧ isHit cached c = false := by
  induction l generalizing i with
  | nil => simp [missOf]
  | cons a rest ih =>
    simp only [missOf]
    by_cases ha : isHit cached a
    · rw [if_pos ha, ih]
      constructor
      · rintro ⟨k, hjk, hk, hmiss⟩
        exact ⟨k + 1, by omega, by simpa using hk, hmiss⟩
      · rintro ⟨k, hjk, hk, hmiss⟩
        cases k with
        | zero =>
          exfalso
          simp only [List.getElem?_cons_zero, Option.some.injEq] at hk
          subst hk
          rw [ha] at hmiss
          exact Bool.noConfusion hmiss
        | succ k' =>
          exact ⟨k', by omega, by simpa using hk, hmiss⟩
    · rw [if_neg ha]
      simp only [List.mem_cons, Prod.mk.injEq, ih]
      constructor
      · rintro (⟨hji, hca⟩ | ⟨k, hjk, hk, hmiss⟩)
        · subst hji; subst hca
          exact ⟨0, by omega, by simp, by simpa using ha⟩
        · exact ⟨k + 1, by omega, by simpa using hk, hmiss⟩
      · rintro ⟨k, hjk, hk, hmiss⟩
        cases k with
        | zero =>
          simp only [List.getElem?_cons_zero, Option.some.injEq] at hk
          exact Or.inl ⟨by omega, hk.symm⟩
        | succ k' =>
          exact Or.inr ⟨k', by omega, by simpa using hk, hmiss⟩

theorem hitsOf_mem_iff (cached : String → Option Vec) (l : List MemoryChunk) (i j : Nat)
    (v : Vec) :
    (j, v) ∈ hitsOf cached l i ↔
      ∃ k c, j = i + k ∧ l[k]? = some c ∧ hitOf cached c = some v ∧ 0 < v.length := by
  induction l generalizing i with
  | nil => simp [hitsOf]
  | cons a rest ih =>
    simp only [hitsOf]
    split
    · rename_i w hh
      by_cases hw : 0 < w.length
      · rw [if_pos hw]
        simp only [List.mem_cons, Prod.mk.injEq, ih]
        constructor
        · rintro (⟨hji, hvw⟩ | ⟨k, c, hjk, hk, hc, hv⟩)
          · subst hji; subst hvw
            exact ⟨0, a, by omega, by simp, hh, hw⟩
          · exact ⟨k + 1, c, by omega, by simpa using hk, hc, hv⟩
        · rintro ⟨k, c, hjk, hk, hc, hv⟩
          cases k with
          | zero =>
            simp only [List.getElem?_cons_zero, Option.some.injEq] at hk
            subst hk
            rw [hh] at hc
            exact Or.inl ⟨by omega, (Option.some.injEq _ _ ▸ hc).symm⟩
          | succ k' =>
            exact Or.inr ⟨k', c, by omega, by simpa using hk, hc, hv⟩
      · rw [if_neg hw, ih]
        constructor
        · rintro ⟨k, c, hjk, hk, hc, hv⟩
          exact ⟨k + 1, c, by omega, by simpa using hk, hc, hv⟩
        · rintro ⟨k, c, hjk, hk, hc, hv⟩
          cases k with
          | zero =>
            exfalso
            simp only [List.getElem?_cons_zero, Option.some.injEq] at hk
            subst hk
            rw [hh] at hc
            rw [Option.some.injEq] at hc
            subst hc
            exact hw hv
          | succ k' =>
            exact ⟨k', c, by omega, by simpa using hk, hc, hv⟩
    · rename_i hh
      rw [ih]
      constructor
      · rintro ⟨k, c, hjk, hk, hc, hv⟩
        exact ⟨k + 1, c, by omega, by simpa using hk, hc, hv⟩
      · rintro ⟨k, c, hjk, hk, hc, hv⟩
        cases k with
        | zero =>
          exfalso
          simp only [List.getElem?_cons_zero, Option.some.injEq] at hk
          subst hk
          rw [hh] at hc
          exact Option.noConfusion hc
        | succ k' =>
          exact ⟨k', c, by omega, by simpa using hk, hc, hv⟩

theorem missOf_fst_lt (cached : String → Option Vec) (l : List MemoryChunk) (i : Nat) :
    ∀ p ∈ missOf cached l i, i ≤ p.1 ∧ p.1 < i + l.length := by
  intro p hp
  obtain ⟨j, c⟩ := p
  rw [missOf_mem_iff] at hp
  obtain ⟨k, hjk, hk, _⟩ := hp
  have hkl : k < l.length := by
    by_contra hge
    rw [List.getElem?_eq_none (Nat.le_of_not_lt hge)] at hk
    exact Option.noConfusion hk
  simp only
  omega

theorem missOf_fst_nodup (cached : String → Option Vec) (l : List MemoryChunk) (i : Nat) :
    ((missOf cached l i).map Prod.fst).Nodup := by
  induction l generalizing i with
  | nil => simp [missOf]
  | cons a rest ih =>
    simp only [missOf]
    by_cases ha : isHit cached a
    · rw [if_pos ha]; exact ih (i + 1)
    · rw [if_neg ha]
      simp only [List.map_cons, List.nodup_cons]
      refine ⟨?_, ih (i + 1)⟩
      intro hmem
      rw [List.mem_map] at hmem
      obtain ⟨p, hp, hpi⟩ := hmem
      have := (missOf_fst_lt cached rest (i + 1) p hp).1
      omega

theorem hitsOf_fst_lt (cached : String → Option Vec) (l : List MemoryChunk) (i : Nat) :
    ∀ p ∈ hitsOf cached l i, i ≤ p.1 ∧ p.1 < i + l.length := by
  intro p hp
  obtain ⟨j, v⟩ := p
  rw [hitsOf_mem_iff] at hp
  obtain ⟨k, c, hjk, hk, _, _⟩ := hp
  have hkl : k < l.length := by
    by_contra hge
    rw [List.getElem?_eq_none (Nat.le_of_not_lt hge)] at hk
    exact Option.noConfusion hk
  simp only
  omega

theorem hitsOf_fst_nodup (cached : String → Option Vec) (l : List MemoryChunk) (i : Nat) :
    ((hitsOf cached l i).map Prod.fst).Nodup := by
  induction l generalizing i with
  | nil => simp [hitsOf]
  | cons a rest ih =>
    simp only [hitsOf]
    split
    · rename_i v hh
      by_cases hv : 0 < v.length
      · rw [if_pos hv]
        simp only [List.map_cons, List.nodup_cons]
        refine ⟨?_, ih (i + 1)⟩
        intro hmem
        rw [List.mem_map] at hmem
        obtain ⟨p, hp, hpi⟩ := hmem
        have := (hitsOf_fst_lt cached rest (i + 1) p hp).1
        omega
      · rw [if_neg hv]; exact ih (i + 1)
    · exact ih (i + 1)

/-- The vector the service is expected to return for one chunk: the cached
vector on a proper cache hit (non-empty hash, non-empty vector), the
provider's vector for the chunk's text otherwise. -/
def expectedVec (cached : String → Option Vec) (f : String → Vec) (c : MemoryChunk) : Vec :=
  match hitOf cached c with
  | some v => if 0 < v.length then v else f c.text
  | none => f c.text

/-- Positional updates contributed by the provider results for the misses. -/
def missUpdates (f : String → Vec) (missing : List (Nat × MemoryChunk)) : List (Nat × Vec) :=
  missing.map (fun p => (p.1, f p.2.text))

/-- Cache writes contributed by the provider results for the misses. -/
def cacheUpdates (f : String → Vec) (missing : List (Nat × MemoryChunk)) :
    List (String × Vec) :=
  missing.map (fun p => (p.2.hash, f p.2.text))

theorem expectedVec_of_hit (cached : String → Option Vec) (f : String → Vec)
    (c : MemoryChunk) (v : Vec) (hh : hitOf cached c = some v) (hv : 0 < v.length) :
    expectedVec cached f c = v := by
  simp [expectedVec, hh, hv]

theorem expectedVec_of_miss (cached : String → Option Vec) (f : String → Vec)
    (c : MemoryChunk) (hm : isHit cached c = false) :
    expectedVec cached f c = f c.text := by
  unfold expectedVec
  unfold isHit at hm
  split
  · rename_i v hh
    rw [hh] at hm
    simp only [decide_eq_false_iff_not] at hm
    rw [if_neg hm]
  · rfl

theorem isHit_true_iff (cached : String → Option Vec) (c : MemoryChunk) :
    isHit cached c = true ↔ ∃ v, hitOf cached c = some v ∧ 0 < v.length := by
  unfold isHit
  split
  · rename_i v hh
    simp [hh]
  · rename_i hh
    simp [hh]

/-- Reassembling hits and misses yields, at every position, the expected
vector for the chunk at that position. -/
theorem setMany_classify (cached : String → Option Vec) (f : String → Vec)
    (chunks : List MemoryChunk) :
    setMany (setMany (List.replicate chunks.length []) (hitsOf cached chunks 0))
      (missUpdates f (missOf cached chunks 0)) = chunks.map (expectedVec cached f) := by
  apply List.ext_getElem?
  intro j
  by_cases hj : j < chunks.length
  · obtain ⟨c, hc⟩ : ∃ c, chunks[j]? = some c :=
      ⟨chunks[j], by simp [hj]⟩
    by_cases hhit : isHit cached c = true
    · obtain ⟨v, hhv, hv⟩ := (isHit_true_iff cached c).mp hhit
      have hmemh : (j, v) ∈ hitsOf cached chunks 0 :=
        (hitsOf_mem_iff cached chunks 0 j v).mpr ⟨j, c, by omega, hc, hhv, hv⟩
      have hinner : (setMany (List.replicate chunks.length ([] : Vec))
          (hitsOf cached chunks 0))[j]? = some v :=
        setMany_getElem_mem _ _ _ _ (hitsOf_fst_nodup cached chunks 0) hmemh
          (by simpa using hj)
      have houter : ∀ p ∈ missUpdates f (missOf cached chunks 0), p.1 ≠ j := by
        intro p hp
        obtain ⟨q, hq, hqp⟩ := List.mem_map.mp hp
        intro hpj
        obtain ⟨k, hk1, hk2, hk3⟩ :=
          (missOf_mem_iff cached chunks 0 q.1 q.2).mp (by simpa using hq)
        have : q.1 = j := by rw [← hqp] at hpj; exact hpj
        have hkj : k = j := by omega
        subst hkj
        rw [hc] at hk2
        have : q.2 = c := by injection hk2 with h; exact h.symm
        rw [this] at hk3
        rw [hhit] at hk3
        exact Bool.noConfusion hk3
      rw [setMany_getElem_not_mem _ _ _ houter, hinner]
      have : expectedVec cached f c = v := expectedVec_of_hit cached f c v hhv hv
      rw [List.getElem?_map, hc]
      simp [this]
    · have hmiss : isHit cached c = false := by
        cases h : isHit cached c with
        | false => rfl
        | true => exact absurd h hhit
      have hmemm : (j, c) ∈ missOf cached chunks 0 :=
        (missOf_mem_iff cached chunks 0 j c).mpr ⟨j, by omega, hc, hmiss⟩
      have hup : (j, f c.text) ∈ missUpdates f (missOf cached chunks 0) :=
        List.mem_map.mpr ⟨(j, c), hmemm, rfl⟩
      have hnd : ((missUpdates f (missOf cached chunks 0)).map Prod.fst).Nodup := by
        have : (missUpdates f (missOf cached chunks 0)).map Prod.fst =
            (missOf cached chunks 0).map Prod.fst := by
          simp [missUpdates]
        rw [this]
        exact missOf_fst_nodup cached chunks 0
      rw [setMany_getElem_mem _ _ _ _ hnd hup (by simpa using hj)]
      rw [List.getElem?_map, hc]
      simp [expectedVec_of_miss cached f c hmiss]
  · have h1 : (setMany (setMany (List.replicate chunks.length ([] : Vec))
        (hitsOf cached chunks 0)) (missUpdates f (missOf cached chunks 0)))[j]? = none := by
      rw [List.getElem?_eq_none]
      simpa using Nat.le_of_not_lt hj
    have h2 : (chunks.map (expectedVec cached f))[j]? = none := by
      rw [List.getElem?_eq_none]
      simpa using Nat.le_of_not_lt hj
    rw [h1, h2]

/-! ## The inline embedding path (`embedChunksInBatches`) -/

/-- Inner loop over one bin:
`for (let i = 0; i < batch.length; i += 1) { const item = missing[cursor + i]; ... }`
writing each provider vector (`batchEmbeddings[i] ?? []`) at the miss's
original index and queueing it for the cache. -/
def batchFill (missing : List (Nat × MemoryChunk)) (bes : List Vec) (cursor n : Nat) :
    Nat → List Vec → List (String × Vec) → List Vec × List (String × Vec)
  | i, emb, tc =>
    if _ : i < n then
      match missing[cursor + i]? with
      | some item =>
        let e := bes[i]?.getD []
        batchFill missing bes cursor n (i + 1) (emb.set item.1 e) (tc ++ [(item.2.hash, e)])
      | none => batchFill missing bes cursor n (i + 1) emb tc
    else (emb, tc)
termination_by i => n - i

/-- Outer loop over the bins, advancing `cursor` by each bin's length. -/
def embedMissingLoop (embedBatch : List String → List Vec)
    (missing : List (Nat × MemoryChunk)) :
    List (List MemoryChunk) → Nat → List Vec → List (String × Vec) →
    List Vec × List (String × Vec)
  | [], _, emb, tc => (emb, tc)
  | batch :: rest, cursor, emb, tc =>
    let bes := embedBatch (batch.map (fun c => c.text))
    let r := batchFill missing bes cursor batch.length 0 emb tc
    embedMissingLoop embedBatch missing rest (cursor + batch.length) r.1 r.2

theorem batchFill_spec (missing : List (Nat × MemoryChunk)) (bes : List Vec)
    (cursor : Nat) (f : String → Vec) :
    ∀ (M : List (Nat × MemoryChunk)) (i : Nat) (emb : List Vec) (tc : List (String × Vec)),
      (∀ k, k < M.length → missing[cursor + i + k]? = M[k]?) →
      (∀ k, k < M.length → bes[i + k]? = (M[k]?).map (fun p => f p.2.text)) →
      batchFill missing bes cursor (i + M.length) i emb tc =
        (setMany emb (missUpdates f M), tc ++ cacheUpdates f M) := by
  intro M
  induction M with
  | nil =>
    intro i emb tc _ _
    rw [batchFill]
    simp [missUpdates, cacheUpdates]
  | cons a M' ih =>
    intro i emb tc hmiss hbes
    rw [batchFill]
    have hi : i < i + (a :: M').length := by simp
    rw [dif_pos hi]
    have h0 : missing[cursor + i]? = some a := by
      have := hmiss 0 (by simp)
      simpa using this
    have hb0 : bes[i]? = some (f a.2.text) := by
      have := hbes 0 (by simp)
      simpa using this
    rw [h0]
    simp only [hb0, Option.getD_some]
    have harg : i + (a :: M').length = (i + 1) + M'.length := by simp; omega
    rw [harg]
    rw [ih (i + 1) (emb.set a.1 (f a.2.text)) (tc ++ [(a.2.hash, f a.2.text)]) ?_ ?_]
    · simp [missUpdates, cacheUpdates, setMany_cons]
    · intro k hk
      have := hmiss (k + 1) (by simpa using Nat.succ_lt_succ hk)
      have harg2 : cursor + i + (k + 1) = cursor + (i + 1) + k := by omega
      rw [harg2] at this
      simpa using this
    · intro k hk
      have := hbes (k + 1) (by simpa using Nat.succ_lt_succ hk)
      have harg2 : i + (k + 1) = (i + 1) + k := by omega
      rw [harg2] at this
      simpa using this

theorem embedMissingLoop_spec (f : String → Vec) (missing : List (Nat × MemoryChunk)) :
    ∀ (batches : List (List MemoryChunk)) (cursor : Nat) (emb : List Vec)
      (tc : List (String × Vec)),
      batches.flatten = (missing.drop cursor).map Prod.snd →
      embedMissingLoop (fun ts => ts.map f) missing batches cursor emb tc =
        (setMany emb (missUpdates f (missing.drop cursor)),
         tc ++ cacheUpdates f (missing.drop cursor)) := by
  intro batches
  induction batches with
  | nil =>
    intro cursor emb tc hflat
    have hdrop : missing.drop cursor = [] := by
      have h : (missing.drop cursor).map Prod.snd = [] := hflat.symm
      exact List.map_eq_nil_iff.mp h
    rw [embedMissingLoop, hdrop]
    simp [missUpdates, cacheUpdates]
  | cons batch rest ih =>
    intro cursor emb tc hflat
    rw [embedMissingLoop]
    have hflat' : batch ++ rest.flatten = (missing.drop cursor).map Prod.snd := by
      simpa using hflat
    have hlen : batch.length ≤ (missing.drop cursor).length := by
      have h := congrArg List.length hflat'
      rw [List.length_append, List.length_map] at h
      omega
    have hM1len : ((missing.drop cursor).take batch.length).length = batch.length := by
      rw [List.length_take]
      exact Nat.min_eq_left hlen
    have hbatch : batch = ((missing.drop cursor).take batch.length).map Prod.snd := by
      have h1 : ((missing.drop cursor).map Prod.snd).take batch.length = batch := by
        rw [← hflat']
        exact List.take_left' rfl
      rw [← List.map_take] at h1
      exact h1.symm
    have hrest : rest.flatten = ((missing.drop cursor).drop batch.length).map Prod.snd := by
      have h2 : ((missing.drop cursor).map Prod.snd).drop batch.length = rest.flatten := by
        rw [← hflat']
        exact List.drop_left' rfl
      rw [← List.map_drop] at h2
      exact h2.symm
    have hcur : missing.drop (cursor + batch.length) =
        (missing.drop cursor).drop batch.length := by
      rw [List.drop_drop]
    have hfill := batchFill_spec missing ((batch.map (fun c => c.text)).map f) cursor f
      ((missing.drop cursor).take batch.length) 0 emb tc ?_ ?_
    · have hn : 0 + ((missing.drop cursor).take batch.length).length = batch.length := by
        rw [hM1len]
        omega
      rw [hn] at hfill
      simp only [hfill]
      rw [ih (cursor + batch.length) _ _ (by rw [hcur]; exact hrest), hcur]
      have hsplit : missing.drop cursor =
          (missing.drop cursor).take batch.length ++ (missing.drop cursor).drop batch.length :=
        (List.take_append_drop batch.length (missing.drop cursor)).symm
      have h1 : missUpdates f (missing.drop cursor) =
          missUpdates f ((missing.drop cursor).take batch.length) ++
          missUpdates f ((missing.drop cursor).drop batch.length) := by
        conv_lhs => rw [hsplit]
        simp [missUpdates]
      have h2 : cacheUpdates f (missing.drop cursor) =
          cacheUpdates f ((missing.drop cursor).take batch.length) ++
          cacheUpdates f ((missing.drop cursor).drop batch.length) := by
        conv_lhs => rw [hsplit]
        simp [cacheUpdates]
      rw [h1, h2, setMany_append]
      simp [List.append_assoc]
    · intro k hk
      have hkb : k < batch.length := by rw [hM1len] at hk; exact hk
      rw [Nat.add_zero]
      rw [List.getElem?_take, if_pos hkb, List.getElem?_drop]
    · intro k hk
      rw [Nat.zero_add, List.getElem?_map, List.getElem?_map]
      conv_lhs => rw [hbatch]
      rw [List.getElem?_map]
      cases hmk : ((missing.drop cursor).take batch.length)[k]? <;> simp

/-- Result record of `embedChunksInBatches`: the returned vectors, the cache
store after the upserts, and (as observable instrumentation of the provider
collaborator) the lists of texts sent to `provider.embedBatch`, one per bin. -/
structure InlineResult where
  embeddings : List Vec
  store : List CacheRow
  sentBatches : List (List String)
deriving Repr, DecidableEq

/-- `embedChunksInBatches` (the inline, non-batch-API path), for a provider
whose successful `embedBatch` outcome is `embedBatch`.  Cache lookups, the
hit/miss classification, token-budget binning, per-bin embedding and the
final cache upsert mirror the source. -/
def embedChunksInBatches (pid pmodel pkey : String) (cacheEnabled : Bool)
    (embedBatch : List String → List Vec) (now : Nat) (store : List CacheRow)
    (chunks : List MemoryChunk) : InlineResult :=
  if chunks.length = 0 then ⟨[], store, []⟩
  else
    let cached := loadEmbeddingCache cacheEnabled store pid pmodel pkey
      (chunks.map (fun c => c.hash))
    let cr := classifyGo cached chunks 0 (List.replicate chunks.length []) []
    if cr.2.length = 0 then ⟨cr.1, store, []⟩
    else
      let missingChunks := cr.2.map Prod.snd
      let batches := buildEmbeddingBatches missingChunks
      let r := embedMissingLoop embedBatch cr.2 batches 0 cr.1 []
      ⟨r.1, upsertEmbeddingCache cacheEnabled pid pmodel pkey now store r.2,
        batches.map (fun b => b.map (fun c => c.text))⟩

/-- The pointwise description of the inline path for a provider that returns
one vector per input text (`embedBatch = map f`). -/
theorem embedChunksInBatches_eq_map (pid pmodel pkey : String) (cacheEnabled : Bool)
    (f : String → Vec) (now : Nat) (store : List CacheRow) (chunks : List MemoryChunk) :
    (embedChunksInBatches pid pmodel pkey cacheEnabled (fun ts => ts.map f) now store
        chunks).embeddings =
      chunks.map (expectedVec
        (loadEmbeddingCache cacheEnabled store pid pmodel pkey
          (chunks.map (fun c => c.hash))) f) := by
  set cached := loadEmbeddingCache cacheEnabled store pid pmodel pkey
    (chunks.map (fun c => c.hash)) with hcached
  unfold embedChunksInBatches
  by_cases hz : chunks.length = 0
  · have : chunks = [] := List.eq_nil_of_length_eq_zero hz
    subst this
    simp
  · rw [if_neg hz]
    simp only [← hcached]
    set cr := classifyGo cached chunks 0 (List.replicate chunks.length []) [] with hcr
    have hsnd : cr.2 = missOf cached chunks 0 := by
      rw [hcr, classifyGo_snd]; simp
    have hfst : cr.1 = setMany (List.replicate chunks.length []) (hitsOf cached chunks 0) := by
      rw [hcr, classifyGo_fst]
    by_cases hm : cr.2.length = 0
    · rw [if_pos hm]
      have hmnil : missOf cached chunks 0 = [] := by
        rw [← hsnd]; exact List.eq_nil_of_length_eq_zero hm
      have := setMany_classify cached f chunks
      rw [hmnil] at this
      simp only [missUpdates, List.map_nil, setMany_nil] at this
      rw [hfst] at *
      exact this
    · rw [if_neg hm]
      have hjoin : (buildEmbeddingBatches (cr.2.map Prod.snd)).flatten =
          (cr.2.drop 0).map Prod.snd := by
        rw [List.drop_zero]
        exact buildEmbeddingBatches_flatten (cr.2.map Prod.snd)
      have := embedMissingLoop_spec f cr.2 (buildEmbeddingBatches (cr.2.map Prod.snd))
        0 cr.1 [] hjoin
      simp only [this, List.drop_zero]
      rw [hfst, hsnd]
      exact setMany_classify cached f chunks

/-! ## Error classification (the regexes, as case-insensitive substring tests) -/

/-- Lower-cased character list of a string (the regexes use the `i` flag). -/
def lcChars (s : String) : List Char := s.data.map Char.toLower

/-- `pat` occurs at the start of `l`. -/
def charsStartWith : List Char → List Char → Bool
  | [], _ => true
  | _ :: _, [] => false
  | a :: pat, b :: l => a == b && charsStartWith pat l

/-- `pat` occurs somewhere inside `l`. -/
def charsContain (pat : List Char) : List Char → Bool
  | [] => charsStartWith pat []
  | b :: rest => charsStartWith pat (b :: rest) || charsContain pat rest

/-- Case-insensitive substring test. -/
def containsCI (s pat : String) : Bool := charsContain (lcChars pat) (lcChars s)

/-- The `5\d\d` alternative of the retryable-error regex. -/
def hasHttp5xx : List Char → Bool
  | c :: a :: b :: rest => (c == '5' && a.isDigit && b.isDigit) || hasHttp5xx (a :: b :: rest)
  | _ => false

/-- `isRetryableEmbeddingError`:
`/(rate[_ ]limit|too many requests|429|resource has been exhausted|5\d\d|cloudflare)/i`. -/
def isRetryableEmbeddingError (message : String) : Bool :=
  let l := lcChars message
  charsContain (lcChars "rate_limit") l || charsContain (lcChars "rate limit") l ||
  charsContain (lcChars "too many requests") l || charsContain (lcChars "429") l ||
  charsContain (lcChars "resource has been exhausted") l ||
  hasHttp5xx l || charsContain (lcChars "cloudflare") l

/-- `isBatchTimeoutError`: `/timed out|timeout/i`. -/
def isBatchTimeoutError (message : String) : Bool :=
  containsCI message "timed out" || containsCI message "timeout"

/-- The forced-disable signature: `/asyncBatchEmbedContent not available/i`. -/
def isForceDisableError (message : String) : Bool :=
  containsCI message "asyncBatchEmbedContent not available"

/-! ## The batch circuit breaker -/

/-- The mutable failure-tracking state of the service: the `batch.enabled`
flag together with `batchFailureCount`, `batchFailureLastError` and
`batchFailureLastProvider`.  The promise-chain mutex serializes the mutators,
so each one is modelled as an atomic state transition. -/
structure BatchState where
  batchEnabled : Bool
  batchFailureCount : Nat
  batchFailureLastError : Option String
  batchFailureLastProvider : Option String
deriving Repr, DecidableEq

/-- The reported slice of `getBatchStatus` modelled here (`enabled`,
`failures`, `limit`); the remaining fields are configuration pass-throughs. -/
structure EmbeddingBatchStatus where
  enabled : Bool
  failures : Nat
  limit : Nat
deriving Repr, DecidableEq

/-- `getBatchStatus` -/
def getBatchStatus (st : BatchState) : EmbeddingBatchStatus :=
  ⟨st.batchEnabled, st.batchFailureCount, BATCH_FAILURE_LIMIT⟩

/-- `resetBatchFailureCount` -/
def resetBatchFailureCount (st : BatchState) : BatchState :=
  { st with
    batchFailureCount := 0
    batchFailureLastError := none
    batchFailureLastProvider := none }

/-- `recordBatchFailure`: returns the new state together with the
`{ disabled, count }` result. -/
def recordBatchFailure (st : BatchState) (provider message : String)
    (attempts : Option Nat) (forceDisable : Bool) : BatchState × Bool × Nat :=
  if st.batchEnabled = false then (st, true, st.batchFailureCount)
  else
    let increment := if forceDisable then BATCH_FAILURE_LIMIT else max 1 (attempts.getD 1)
    let count := st.batchFailureCount + increment
    let disabled := forceDisable || decide (BATCH_FAILURE_LIMIT ≤ count)
    ({ batchEnabled := if disabled then false else st.batchEnabled
       batchFailureCount := count
       batchFailureLastError := some message
       batchFailureLastProvider := some provider },
     disabled, count)

/-! ## Retry with backoff (`embedBatchWithRetry`) -/

/-- Outcome of one `provider.embedBatch` invocation (under its timeout guard). -/
inductive CallOutcome where
  | ok (vs : List Vec)
  | err (msg : String)
deriving Repr, DecidableEq

/-- The `while (true)` retry loop of `embedBatchWithRetry`, with the provider
call modelled by its outcome per attempt number.  Returns the final outcome
together with the number of provider invocations made. -/
def embedBatchRetryGo (call : Nat → CallOutcome) (attempt : Nat) :
    Except String (List Vec) × Nat :=
  match call attempt with
  | .ok vs => (.ok vs, 1)
  | .err m =>
    if h : isRetryableEmbeddingError m = false ∨ EMBEDDING_RETRY_MAX_ATTEMPTS ≤ attempt then
      (.error m, 1)
    else
      let r := embedBatchRetryGo call (attempt + 1)
      (r.1, r.2 + 1)
termination_by EMBEDDING_RETRY_MAX_ATTEMPTS + 1 - attempt
decreasing_by
  push_neg at h
  omega

/-- `embedBatchWithRetry`: empty inputs return `[]` without any provider
invocation; otherwise the retry loop runs from attempt 0. -/
def embedBatchWithRetry (call : Nat → CallOutcome) (texts : List String) :
    Except String (List Vec) × Nat :=
  if texts.length = 0 then (.ok [], 0)
  else embedBatchRetryGo call 0

/-! ## Batch submission with timeout retry and inline fallback -/

/-- Outcome of one batch-runner submission. -/
inductive RunOutcome (T : Type) where
  | ok (t : T)
  | err (msg : String)

/-- `runBatchWithTimeoutRetry`: on a timeout error the whole submission is
retried exactly once, and the retry error is tagged with `batchAttempts = 2`;
any other error propagates with an implicit attempt count of 1. -/
def runBatchWithTimeoutRetry {T : Type} (run : Nat → RunOutcome T) :
    Except (String × Nat) T :=
  match run 0 with
  | .ok t => .ok t
  | .err m =>
    if isBatchTimeoutError m then
      match run 1 with
      | .ok t => .ok t
      | .err m2 => .error (m2, 2)
    else .error (m, 1)

/-- What `runBatchWithFallback` produces: the breaker state afterwards, the
value handed to the caller (`Sum.inl` a runner result, `Sum.inr` a fallback
result) or the fallback's own error, and whether a batch submission was
attempted at all. -/
structure FallbackOutcome (T : Type) where
  state : BatchState
  result : Except String (T ⊕ List Vec)
  attemptedBatch : Bool

/-- `runBatchWithFallback`, with the inline fallback's outcome passed as a
value (`fallback`). -/
def runBatchWithFallback {T : Type} (st : BatchState) (provider : String)
    (run : Nat → RunOutcome T) (fallback : Except String (List Vec)) :
    FallbackOutcome T :=
  if st.batchEnabled = false then ⟨st, fallback.map Sum.inr, false⟩
  else
    match runBatchWithTimeoutRetry run with
    | .ok t => ⟨resetBatchFailureCount st, .ok (.inl t), true⟩
    | .error me =>
      let st' := (recordBatchFailure st provider me.1 (some me.2)
        (isForceDisableError me.1)).1
      ⟨st', fallback.map Sum.inr, true⟩

/-! ## Cache pruning (`pruneEmbeddingCacheIfNeeded`) -/

/-- Remove the first row with minimal `updated_at` from a list, returning it
and the remaining rows in their original order. -/
def extractMin : List CacheRow → Option (CacheRow × List CacheRow)
  | [] => none
  | r :: rest =>
    match extractMin rest with
    | none => some (r, [])
    | some mr =>
      if r.updatedAt ≤ mr.1.updatedAt then some (r, rest) else some (mr.1, r :: mr.2)

/-- Delete `n` oldest rows (`DELETE ... ORDER BY updated_at ASC LIMIT n`),
returning the deleted rows and the remaining store. -/
def pruneLoop : Nat → List CacheRow → List CacheRow × List CacheRow
  | 0, l => ([], l)
  | n + 1, l =>
    match extractMin l with
    | none => ([], l)
    | some mr =>
      let r := pruneLoop n mr.2
      (mr.1 :: r.1, r.2)

/-- `pruneEmbeddingCacheIfNeeded`: no-op when caching is disabled, when
`maxEntries` is unset or non-positive, or when the row count is at most
`maxEntries`; otherwise delete `count - maxEntries` oldest rows. -/
def pruneEmbeddingCacheIfNeeded (cacheEnabled : Bool) (maxEntries : Option Int)
    (store : List CacheRow) : List CacheRow :=
  if cacheEnabled = false then store
  else
    match maxEntries with
    | none => store
    | some max =>
      if max ≤ 0 then store
      else if (store.length : Int) ≤ max then store
      else (pruneLoop (store.length - max.toNat) store).2

/-! ## Cache seeding (`seedEmbeddingCache`) -/

/-- The backing database as seen through `BEGIN`/`COMMIT`/`ROLLBACK`: a
committed row list plus the in-transaction row list while a transaction is
open.  This models the SQLite transaction contract the source relies on. -/
structure Db where
  committed : List CacheRow
  txn : Option (List CacheRow)
deriving Repr, DecidableEq

/-- The state statements read and write: the open transaction if any. -/
def dbActive (db : Db) : List CacheRow := db.txn.getD db.committed

/-- `BEGIN` -/
def dbBegin (db : Db) : Db := ⟨db.committed, some db.committed⟩

/-- `COMMIT` -/
def dbCommit (db : Db) : Db := ⟨dbActive db, none⟩

/-- `ROLLBACK` (a no-op on the committed state when no transaction is open,
matching the swallowed `ROLLBACK` failure in the source's catch block). -/
def dbRollback (db : Db) : Db := ⟨db.committed, none⟩

/-- One `insert.run(...)` of the seed loop: an upsert against the active state. -/
def dbInsert (db : Db) (row : CacheRow) : Db :=
  ⟨db.committed, some (upsertRow (dbActive db) row)⟩

/-- The seed insert loop; `failAt = some i` makes the `i`-th insert throw. -/
def seedLoop (failAt : Option Nat) : List CacheRow → Nat → Db → Db × Option String
  | [], _, db => (db, none)
  | row :: rest, i, db =>
    if failAt = some i then (db, some "seed insert failed")
    else seedLoop failAt rest (i + 1) (dbInsert db row)

/-- `seedEmbeddingCache`: read all source rows, and copy them inside a single
transaction; on any failure roll back and surface the error (`some e`). -/
def seedEmbeddingCache (cacheEnabled : Bool) (db : Db) (sourceRows : List CacheRow)
    (readFails : Bool) (failAt : Option Nat) : Db × Option String :=
  if cacheEnabled = false then (db, none)
  else if readFails then (dbRollback db, some "seed read failed")
  else if sourceRows.isEmpty then (db, none)
  else
    match seedLoop failAt sourceRows 0 (dbBegin db) with
    | (db', none) => (dbCommit db', none)
    | (db', some e) => (dbRollback db', some e)

/-! ## Batch-API paths (`embedChunksWithOpenAiBatch`, `embedChunksWithGeminiBatch`) -/

/-- The string hashed by `hashText` to form a batch request's `custom_id`. -/
def customIdSeed (source entryPath : String) (c : MemoryChunk) (index : Nat) : String :=
  source ++ ":" ++ entryPath ++ ":" ++ toString c.startLine ++ ":" ++ toString c.endLine ++
    ":" ++ c.hash ++ ":" ++ toString index

attribute [irreducible] customIdSeed

/-- One OpenAI batch request (`custom_id`, body model, body input). -/
structure OpenAiBatchRequest where
  custom_id : String
  model : String
  input : String
deriving Repr, DecidableEq

/-- One Gemini batch request (`custom_id`, text part, task type). -/
structure GeminiBatchRequest where
  custom_id : String
  text : String
  taskType : String
deriving Repr, DecidableEq

/-- The resolved value of the batch submission as consumed by the callers:
either a plain positional array (`Array.isArray(batchResult)`, produced by
the inline fallback or a degraded runner) or a `custom_id → vector` map. -/
inductive BatchRunnerResult where
  | positional (vs : List Vec)
  | byId (m : List (String × Vec))

/-- JS `Map.get` over an insertion-ordered association list in which a later
`set` on the same key overwrites an earlier one. -/
def mapGet {α : Type} (mapping : List (String × α)) (k : String) : Option α :=
  ((mapping.filter (fun p => p.1 == k)).map (fun p => p.2)).getLast?

/-- The reconciliation loop over the runner's `(custom_id, embedding)`
entries: look each id up in `mapping`, write the vector at the mapped index
and queue `(hash, vector)` for the cache; unknown ids are skipped. -/
def reconcileLoop (mapping : List (String × (Nat × String))) :
    List (String × Vec) → List Vec → List Vec × List (String × Vec)
  | [], emb => (emb, [])
  | ce :: rest, emb =>
    match mapGet mapping ce.1 with
    | none => reconcileLoop mapping rest emb
    | some idxHash =>
      let r := reconcileLoop mapping rest (emb.set idxHash.1 ce.2)
      (r.1, (idxHash.2, ce.2) :: r.2)

/-- Result record of a batch-API path. -/
structure BatchPathResult (Req : Type) where
  embeddings : List Vec
  store : List CacheRow
  requests : List Req
deriving Repr, DecidableEq

/-- `embedChunksWithOpenAiBatch`, with the resolved submission value passed
as `batchResult`.  Classification, request/mapping construction from the
misses, positional pass-through, by-id reconciliation and the cache upsert
mirror the source. -/
def embedChunksWithOpenAiBatch (hashText : String → String) (pid pmodel pkey : String)
    (openAiModel : String) (cacheEnabled : Bool) (now : Nat) (store : List CacheRow)
    (entryPath source : String) (batchResult : BatchRunnerResult)
    (chunks : List MemoryChunk) : BatchPathResult OpenAiBatchRequest :=
  if chunks.length = 0 then ⟨[], store, []⟩
  else
    let cached := loadEmbeddingCache cacheEnabled store pid pmodel pkey
      (chunks.map (fun c => c.hash))
    let cr := classifyGo cached chunks 0 (List.replicate chunks.length []) []
    if cr.2.length = 0 then ⟨cr.1, store, []⟩
    else
      let requests := cr.2.map (fun item =>
        ⟨hashText (customIdSeed source entryPath item.2 item.1), openAiModel, item.2.text⟩)
      let mapping := cr.2.map (fun item =>
        (hashText (customIdSeed source entryPath item.2 item.1), (item.1, item.2.hash)))
      match batchResult with
      | .positional vs => ⟨vs, store, requests⟩
      | .byId m =>
        let r := reconcileLoop mapping m cr.1
        ⟨r.1, upsertEmbeddingCache cacheEnabled pid pmodel pkey now store r.2, requests⟩

/-- `embedChunksWithGeminiBatch`, identical in structure to the OpenAI path
but building Gemini requests with task type `RETRIEVAL_DOCUMENT`. -/
def embedChunksWithGeminiBatch (hashText : String → String) (pid pmodel pkey : String)
    (cacheEnabled : Bool) (now : Nat) (store : List CacheRow)
    (entryPath source : String) (batchResult : BatchRunnerResult)
    (chunks : List MemoryChunk) : BatchPathResult GeminiBatchRequest :=
  if chunks.length = 0 then ⟨[], store, []⟩
  else
    let cached := loadEmbeddingCache cacheEnabled store pid pmodel pkey
      (chunks.map (fun c => c.hash))
    let cr := classifyGo cached chunks 0 (List.replicate chunks.length []) []
    if cr.2.length = 0 then ⟨cr.1, store, []⟩
    else
      let requests := cr.2.map (fun item =>
        ⟨hashText (customIdSeed source entryPath item.2 item.1), item.2.text,
          "RETRIEVAL_DOCUMENT"⟩)
      let mapping := cr.2.map (fun item =>
        (hashText (customIdSeed source entryPath item.2 item.1), (item.1, item.2.hash)))
      match batchResult with
      | .positional vs => ⟨vs, store, requests⟩
      | .byId m =>
        let r := reconcileLoop mapping m cr.1
        ⟨r.1, upsertEmbeddingCache cacheEnabled pid pmodel pkey now store r.2, requests⟩

/-- `embedChunksWithBatch`: dispatch on the provider id and the configured
clients (`hasOpenAi`/`hasGemini` model the optional `openAi`/`gemini`
client fields), falling through to the inline path. -/
def embedChunksWithBatch (hashText : String → String) (pid pmodel pkey : String)
    (openAiModel : String) (hasOpenAi hasGemini : Bool) (cacheEnabled : Bool)
    (embedBatch : List String → List Vec) (now : Nat) (store : List CacheRow)
    (entryPath source : String) (openAiResult geminiResult : BatchRunnerResult)
    (chunks : List MemoryChunk) : List Vec :=
  if pid = "openai" ∧ hasOpenAi = true then
    (embedChunksWithOpenAiBatch hashText pid pmodel pkey openAiModel cacheEnabled now store
      entryPath source openAiResult chunks).embeddings
  else if pid = "gemini" ∧ hasGemini = true then
    (embedChunksWithGeminiBatch hashText pid pmodel pkey cacheEnabled now store
      entryPath source geminiResult chunks).embeddings
  else
    (embedChunksInBatches pid pmodel pkey cacheEnabled embedBatch now store chunks).embeddings

/-- `embedChunksForFile`: the batch path when `batch.enabled`, else the
inline path. -/
def embedChunksForFile (st : BatchState) (hashText : String → String)
    (pid pmodel pkey openAiModel : String) (hasOpenAi hasGemini : Bool)
    (cacheEnabled : Bool) (embedBatch : List String → List Vec) (now : Nat)
    (store : List CacheRow) (entryPath source : String)
    (openAiResult geminiResult : BatchRunnerResult)
    (chunks : List MemoryChunk) : List Vec :=
  if st.batchEnabled then
    embedChunksWithBatch hashText pid pmodel pkey openAiModel hasOpenAi hasGemini
      cacheEnabled embedBatch now store entryPath source openAiResult geminiResult chunks
  else
    (embedChunksInBatches pid pmodel pkey cacheEnabled embedBatch now store chunks).embeddings

/-! ## C2: `recordBatchFailure` under `forceDisable` -/

/-- **C2, counterexample.** With one prior recorded failure (count 1, batch
still enabled — reachable by a single failure with `attempts = 1`), a forced
disable leaves the counter at `1 + 2 = 3`, not equal to the disable
threshold 2: `recordBatchFailure` adds the limit rather than assigning it. -/
theorem recordBatchFailure_forceDisable_count_ne_limit :
    ¬ ((recordBatchFailure ⟨true, 1, none, none⟩ "gemini"
        "asyncBatchEmbedContent not available" (some 1) true).1.batchFailureCount =
      BATCH_FAILURE_LIMIT) := by
  decide

/-- **C2 (amended).** For every prior failure count (batch still enabled),
calling `recordBatchFailure` with `forceDisable` set increments the failure
counter by the disable threshold — so the counter becomes the prior count
plus the limit, hence at least the limit — and flips the batch-enabled flag
to false; afterwards `getBatchStatus` reports `enabled = false` with `count`
at least the configured limit. -/
theorem recordBatchFailure_forceDisable (st : BatchState) (p m : String) (a : Option Nat)
    (hen : st.batchEnabled = true) :
    (recordBatchFailure st p m a true).1.batchFailureCount =
        st.batchFailureCount + BATCH_FAILURE_LIMIT ∧
    (recordBatchFailure st p m a true).1.batchEnabled = false ∧
    (recordBatchFailure st p m a true).2.1 = true ∧
    (getBatchStatus (recordBatchFailure st p m a true).1).enabled = false ∧
    BATCH_FAILURE_LIMIT ≤ (getBatchStatus (recordBatchFailure st p m a true).1).failures := by
  unfold recordBatchFailure getBatchStatus
  rw [hen]
  simp

/-- Witness for C2 (amended) at the concrete state of the counterexample. -/
theorem recordBatchFailure_forceDisable_witness :
    (recordBatchFailure ⟨true, 1, none, none⟩ "gemini" "x" (some 1) true).1.batchFailureCount =
        1 + BATCH_FAILURE_LIMIT ∧
    (recordBatchFailure ⟨true, 1, none, none⟩ "gemini" "x" (some 1) true).1.batchEnabled = false ∧
    (recordBatchFailure ⟨true, 1, none, none⟩ "gemini" "x" (some 1) true).2.1 = true ∧
    (getBatchStatus (recordBatchFailure ⟨true, 1, none, none⟩ "gemini" "x"
      (some 1) true).1).enabled = false ∧
    BATCH_FAILURE_LIMIT ≤ (getBatchStatus (recordBatchFailure ⟨true, 1, none, none⟩ "gemini" "x"
      (some 1) true).1).failures :=
  recordBatchFailure_forceDisable ⟨true, 1, none, none⟩ "gemini" "x" (some 1) rfl

/-! ## C3: the retry loop's invocation count -/

theorem embedBatchRetryGo_count_le (n : Nat) :
    ∀ (call : Nat → CallOutcome) (attempt : Nat),
      EMBEDDING_RETRY_MAX_ATTEMPTS + 1 - attempt ≤ n →
      (embedBatchRetryGo call attempt).2 ≤ max 1 (EMBEDDING_RETRY_MAX_ATTEMPTS + 1 - attempt) := by
  induction n with
  | zero =>
    intro call attempt h
    unfold embedBatchRetryGo
    cases call attempt with
    | ok vs => simp
    | err m =>
      simp only []
      have hge : EMBEDDING_RETRY_MAX_ATTEMPTS ≤ attempt := by omega
      rw [dif_pos (Or.inr hge)]
      simp
  | succ n ih =>
    intro call attempt h
    unfold embedBatchRetryGo
    cases call attempt with
    | ok vs => simp
    | err m =>
      simp only []
      by_cases hc : isRetryableEmbeddingError m = false ∨ EMBEDDING_RETRY_MAX_ATTEMPTS ≤ attempt
      · rw [dif_pos hc]
        simp
      · rw [dif_neg hc]
        push_neg at hc
        have hrec := ih call (attempt + 1) (by omega)
        simp only []
        have h2 : max 1 (EMBEDDING_RETRY_MAX_ATTEMPTS + 1 - (attempt + 1)) + 1 ≤
            max 1 (EMBEDDING_RETRY_MAX_ATTEMPTS + 1 - attempt) := by
          have : attempt < EMBEDDING_RETRY_MAX_ATTEMPTS := hc.2
          omega
        omega

theorem embedBatchRetryGo_all_retryable (call : Nat → CallOutcome) (msg : Nat → String)
    (hcall : ∀ k, call k = .err (msg k))
    (hretry : ∀ k, isRetryableEmbeddingError (msg k) = true) (n : Nat) :
    ∀ attempt, attempt ≤ EMBEDDING_RETRY_MAX_ATTEMPTS →
      EMBEDDING_RETRY_MAX_ATTEMPTS - attempt ≤ n →
      embedBatchRetryGo call attempt =
        (.error (msg EMBEDDING_RETRY_MAX_ATTEMPTS),
         EMBEDDING_RETRY_MAX_ATTEMPTS + 1 - attempt) := by
  induction n with
  | zero =>
    intro attempt hle h
    have heq : attempt = EMBEDDING_RETRY_MAX_ATTEMPTS := by omega
    subst heq
    unfold embedBatchRetryGo
    rw [hcall]
    simp only []
    rw [dif_pos (Or.inr (Nat.le_refl _))]
    simp
  | succ n ih =>
    intro attempt hle h
    by_cases heq : attempt = EMBEDDING_RETRY_MAX_ATTEMPTS
    · subst heq
      unfold embedBatchRetryGo
      rw [hcall]
      simp only []
      rw [dif_pos (Or.inr (Nat.le_refl _))]
      simp
    · have hlt : attempt < EMBEDDING_RETRY_MAX_ATTEMPTS := by omega
      unfold embedBatchRetryGo
      rw [hcall]
      simp only []
      have hnc : ¬ (isRetryableEmbeddingError (msg attempt) = false ∨
          EMBEDDING_RETRY_MAX_ATTEMPTS ≤ attempt) := by
        push_neg
        exact ⟨by rw [hretry]; decide, by omega⟩
      rw [dif_neg hnc]
      rw [ih (attempt + 1) (by omega) (by omega)]
      simp only []
      have harith : EMBEDDING_RETRY_MAX_ATTEMPTS + 1 - (attempt + 1) + 1 =
          EMBEDDING_RETRY_MAX_ATTEMPTS + 1 - attempt := by omega
      rw [harith]

/-- **C3, counterexample.** A provider failing every invocation with the
retryable message `"429"` is invoked 4 times by `embedBatchWithRetry`
(1 initial call plus `EMBEDDING_RETRY_MAX_ATTEMPTS = 3` retries), so the
claimed bound of at most 3 provider invocations is violated. -/
theorem embedBatchWithRetry_four_invocations :
    (embedBatchWithRetry (fun _ => .err "429") ["x"]).2 = 4 ∧
    ¬ ((embedBatchWithRetry (fun _ => .err "429") ["x"]).2 ≤ 3) := by
  have h := embedBatchRetryGo_all_retryable (fun _ => .err "429") (fun _ => "429")
    (fun _ => rfl) (fun _ => (by decide : isRetryableEmbeddingError "429" = true))
    EMBEDDING_RETRY_MAX_ATTEMPTS 0 (Nat.zero_le _) (by omega)
  have hr : embedBatchWithRetry (fun _ => .err "429") ["x"] =
      (.error "429", 4) := by
    unfold embedBatchWithRetry
    rw [if_neg (by decide)]
    rw [h]
    simp [Prod.mk.injEq, EMBEDDING_RETRY_MAX_ATTEMPTS]
  rw [hr]
  exact ⟨rfl, by decide⟩

/-- **C3 (amended).** Under the default configuration the retry loop invokes
the provider at most `EMBEDDING_RETRY_MAX_ATTEMPTS + 1 = 4` times (one
initial invocation plus up to 3 retries); a non-retryable error is rethrown
immediately after the failing invocation without any retry; and when every
invocation fails with a retryable error, the last error is rethrown after
exactly 4 invocations. -/
theorem embedBatchWithRetry_spec (call : Nat → CallOutcome) (texts : List String)
    (m : String) (msg : Nat → String)
    (hne : texts.length ≠ 0) :
    ((embedBatchWithRetry call texts).2 ≤ EMBEDDING_RETRY_MAX_ATTEMPTS + 1) ∧
    (call 0 = .err m → isRetryableEmbeddingError m = false →
      embedBatchWithRetry call texts = (.error m, 1)) ∧
    ((∀ k, call k = .err (msg k)) → (∀ k, isRetryableEmbeddingError (msg k) = true) →
      embedBatchWithRetry call texts =
        (.error (msg EMBEDDING_RETRY_MAX_ATTEMPTS), EMBEDDING_RETRY_MAX_ATTEMPTS + 1)) := by
  refine ⟨?_, ?_, ?_⟩
  · unfold embedBatchWithRetry
    rw [if_neg hne]
    have := embedBatchRetryGo_count_le (EMBEDDING_RETRY_MAX_ATTEMPTS + 1) call 0 (by omega)
    simpa using this
  · intro hc hnr
    unfold embedBatchWithRetry
    rw [if_neg hne]
    unfold embedBatchRetryGo
    rw [hc]
    simp only []
    rw [dif_pos (Or.inl hnr)]
  · intro hcall hretry
    unfold embedBatchWithRetry
    rw [if_neg hne]
    have := embedBatchRetryGo_all_retryable call msg hcall hretry
      EMBEDDING_RETRY_MAX_ATTEMPTS 0 (Nat.zero_le _) (by omega)
    simpa using this

/-- Witness for C3 (amended): a call that fails non-retryably on the first
invocation (`"bad request"` matches no retryable pattern) is rethrown after
exactly one invocation, and the bound of 4 holds. -/
theorem embedBatchWithRetry_spec_witness :
    ((embedBatchWithRetry (fun _ => CallOutcome.err "bad request") ["x"]).2 ≤
        EMBEDDING_RETRY_MAX_ATTEMPTS + 1) ∧
    (CallOutcome.err "bad request" = CallOutcome.err "bad request" →
      isRetryableEmbeddingError "bad request" = false →
      embedBatchWithRetry (fun _ => CallOutcome.err "bad request") ["x"] =
        (.error "bad request", 1)) ∧
    ((∀ _ : Nat, CallOutcome.err "bad request" = CallOutcome.err "bad request") →
      (∀ _ : Nat, isRetryableEmbeddingError "bad request" = true) →
      embedBatchWithRetry (fun _ => CallOutcome.err "bad request") ["x"] =
        (.error "bad request", EMBEDDING_RETRY_MAX_ATTEMPTS + 1)) :=
  embedBatchWithRetry_spec (fun _ => CallOutcome.err "bad request") ["x"] "bad request"
    (fun _ => "bad request") (by decide)

/-! ## C5: the batch-enabled flag is monotone -/

/-- **C5.** Once the batch-enabled flag is false it stays false: neither
`recordBatchFailure` nor `resetBatchFailureCount` (the only operations
touching the failure state) re-enables it; a `recordBatchFailure` on an
enabled state whose forced disable fires or whose new count reaches
`BATCH_FAILURE_LIMIT` flips the flag to false; and with the flag false,
`embedChunksForFile` takes the inline path and `runBatchWithFallback`
returns the fallback without attempting a batch submission. -/
theorem batchEnabled_monotone {T : Type} (st st2 : BatchState) (p m : String)
    (a : Option Nat) (fd : Bool)
    (hashText : String → String) (pid pmodel pkey openAiModel : String)
    (hasOpenAi hasGemini : Bool) (cacheEnabled : Bool)
    (embedBatch : List String → List Vec) (now : Nat) (store : List CacheRow)
    (entryPath source : String) (oaRes gmRes : BatchRunnerResult)
    (chunks : List MemoryChunk)
    (run : Nat → RunOutcome T) (fallback : Except String (List Vec))
    (hdis : st.batchEnabled = false) :
    ((recordBatchFailure st p m a fd).1.batchEnabled = false) ∧
    ((resetBatchFailureCount st).batchEnabled = false) ∧
    (st2.batchEnabled = true →
      (fd = true ∨ BATCH_FAILURE_LIMIT ≤ st2.batchFailureCount +
        (if fd then BATCH_FAILURE_LIMIT else max 1 (a.getD 1))) →
      (recordBatchFailure st2 p m a fd).1.batchEnabled = false) ∧
    (embedChunksForFile st hashText pid pmodel pkey openAiModel hasOpenAi hasGemini
        cacheEnabled embedBatch now store entryPath source oaRes gmRes chunks =
      (embedChunksInBatches pid pmodel pkey cacheEnabled embedBatch now store
        chunks).embeddings) ∧
    ((runBatchWithFallback st p run fallback).attemptedBatch = false ∧
     (runBatchWithFallback st p run fallback).state = st ∧
     (runBatchWithFallback st p run fallback).result = fallback.map Sum.inr) := by
  refine ⟨?_, ?_, ?_, ?_, ?_⟩
  · simp [recordBatchFailure, hdis]
  · simp [resetBatchFailureCount, hdis]
  · intro hen2 hdisj
    rcases hdisj with hfd | hcount
    · subst hfd
      simp [recordBatchFailure, hen2]
    · by_cases hfd : fd = true
      · subst hfd
        simp [recordBatchFailure, hen2]
      · have hfalse : fd = false := by
          cases fd with
          | false => rfl
          | true => exact absurd rfl hfd
        subst hfalse
        rw [if_neg (by decide : ¬ ((false : Bool) = true))] at hcount
        simp [recordBatchFailure, hen2, hcount]
  · simp [embedChunksForFile, hdis]
  · simp [runBatchWithFallback, hdis]

/-- Witness for C5 at a concrete disabled state and a concrete enabled state
one failure short of the limit. -/
theorem batchEnabled_monotone_witness :
    ((recordBatchFailure ⟨false, 2, none, none⟩ "openai" "boom" (some 1) false).1.batchEnabled =
      false) ∧
    ((resetBatchFailureCount ⟨false, 2, none, none⟩).batchEnabled = false) ∧
    ((⟨true, 1, none, none⟩ : BatchState).batchEnabled = true →
      ((false : Bool) = true ∨ BATCH_FAILURE_LIMIT ≤ 1 +
        (if false then BATCH_FAILURE_LIMIT else max 1 ((some 1).getD 1))) →
      (recordBatchFailure ⟨true, 1, none, none⟩ "openai" "boom" (some 1)
        false).1.batchEnabled = false) ∧
    (embedChunksForFile ⟨false, 2, none, none⟩ id "openai" "te3" "k" "te3" true false
        true (fun ts => ts.map (fun _ => [1])) 7 [] "p" "memory"
        (.positional []) (.positional []) [] =
      (embedChunksInBatches "openai" "te3" "k" true (fun ts => ts.map (fun _ => [1])) 7 []
        []).embeddings) ∧
    ((runBatchWithFallback (T := Nat) ⟨false, 2, none, none⟩ "openai"
        (fun _ => .err "boom") (.ok [])).attemptedBatch = false ∧
     (runBatchWithFallback (T := Nat) ⟨false, 2, none, none⟩ "openai"
        (fun _ => .err "boom") (.ok [])).state = ⟨false, 2, none, none⟩ ∧
     (runBatchWithFallback (T := Nat) ⟨false, 2, none, none⟩ "openai"
        (fun _ => .err "boom") (.ok [])).result = (Except.ok ([] : List Vec)).map Sum.inr) :=
  batchEnabled_monotone ⟨false, 2, none, none⟩ ⟨true, 1, none, none⟩ "openai" "boom"
    (some 1) false id "openai" "te3" "k" "te3" true false true
    (fun ts => ts.map (fun _ => [1])) 7 [] "p" "memory" (.positional []) (.positional [])
    [] (fun _ => .err "boom") (.ok []) rfl

/-! ## C8: batch errors are recorded, then converted into the fallback -/

/-- **C8.** When the breaker is enabled and the batch submission (after its
single timeout retry) fails, the failure is recorded against the circuit
breaker and the caller receives the inline fallback's value; the caller sees
an exception only when the fallback itself fails, and a timeout error on the
first submission causes exactly one full retry whose error carries
`batchAttempts = 2`. -/
theorem runBatchWithFallback_spec {T : Type} (st : BatchState) (provider : String)
    (run : Nat → RunOutcome T) (fallback : Except String (List Vec))
    (m m0 m1 : String) (att : Nat)
    (hen : st.batchEnabled = true) :
    (runBatchWithTimeoutRetry run = .error (m, att) →
      ((runBatchWithFallback st provider run fallback).state =
        (recordBatchFailure st provider m (some att) (isForceDisableError m)).1 ∧
       (runBatchWithFallback st provider run fallback).result = fallback.map Sum.inr)) ∧
    (∀ e, (runBatchWithFallback st provider run fallback).result = .error e →
      fallback = .error e) ∧
    (∀ vs, runBatchWithTimeoutRetry run = .error (m, att) → fallback = .ok vs →
      (runBatchWithFallback st provider run fallback).result = .ok (.inr vs)) ∧
    (run 0 = .err m0 → isBatchTimeoutError m0 = true → run 1 = .err m1 →
      runBatchWithTimeoutRetry run = .error (m1, 2)) := by
  refine ⟨?_, ?_, ?_, ?_⟩
  · intro herr
    unfold runBatchWithFallback
    rw [hen]
    simp only [Bool.true_eq_false, if_false, reduceIte]
    rw [herr]
    exact ⟨rfl, rfl⟩
  · intro e hres
    unfold runBatchWithFallback at hres
    rw [hen] at hres
    simp only [Bool.true_eq_false, if_false, reduceIte] at hres
    cases hrr : runBatchWithTimeoutRetry run with
    | ok t =>
      rw [hrr] at hres
      simp at hres
    | error me =>
      rw [hrr] at hres
      simp only [] at hres
      cases fallback with
      | ok vs => simp [Except.map] at hres
      | error e' =>
        simp only [Except.map] at hres
        injection hres with h
        rw [h]
  · intro vs herr hfb
    unfold runBatchWithFallback
    rw [hen]
    simp only [Bool.true_eq_false, if_false, reduceIte]
    rw [herr, hfb]
    rfl
  · intro h0 htime h1
    unfold runBatchWithTimeoutRetry
    rw [h0]
    simp only []
    rw [if_pos htime, h1]

/-- Witness for C8: a non-timeout runner failure with a successful fallback. -/
theorem runBatchWithFallback_spec_witness :
    (runBatchWithTimeoutRetry (T := Nat) (fun _ => .err "boom") = .error ("boom", 1) →
      ((runBatchWithFallback ⟨true, 0, none, none⟩ "openai"
          (fun _ => RunOutcome.err (T := Nat) "boom") (.ok [[1]])).state =
        (recordBatchFailure ⟨true, 0, none, none⟩ "openai" "boom" (some 1)
          (isForceDisableError "boom")).1 ∧
       (runBatchWithFallback ⟨true, 0, none, none⟩ "openai"
          (fun _ => RunOutcome.err (T := Nat) "boom") (.ok [[1]])).result =
        (Except.ok ([[1]] : List Vec)).map Sum.inr)) ∧
    (∀ e, (runBatchWithFallback ⟨true, 0, none, none⟩ "openai"
        (fun _ => RunOutcome.err (T := Nat) "boom") (.ok [[1]])).result = .error e →
      (Except.ok ([[1]] : List Vec) : Except String (List Vec)) = .error e) ∧
    (∀ vs, runBatchWithTimeoutRetry (T := Nat) (fun _ => .err "boom") = .error ("boom", 1) →
      (Except.ok ([[1]] : List Vec) : Except String (List Vec)) = .ok vs →
      (runBatchWithFallback ⟨true, 0, none, none⟩ "openai"
        (fun _ => RunOutcome.err (T := Nat) "boom") (.ok [[1]])).result = .ok (.inr vs)) ∧
    ((fun _ => RunOutcome.err (T := Nat) "boom") 0 = .err "timed out after 120s" →
      isBatchTimeoutError "timed out after 120s" = true →
      (fun _ => RunOutcome.err (T := Nat) "boom") 1 = .err "boom2" →
      runBatchWithTimeoutRetry (T := Nat) (fun _ => .err "boom") = .error ("boom2", 2)) :=
  runBatchWithFallback_spec ⟨true, 0, none, none⟩ "openai"
    (fun _ => RunOutcome.err (T := Nat) "boom") (.ok [[1]]) "boom"
    "timed out after 120s" "boom2" 1 rfl

/-! ## C6: pruning exactness -/

theorem extractMin_eq_none (l : List CacheRow) : extractMin l = none ↔ l = [] := by
  cases l with
  | nil => simp [extractMin]
  | cons r rest =>
    simp only [extractMin]
    constructor
    · intro h
      cases hrec : extractMin rest with
      | none => rw [hrec] at h; simp at h
      | some mr =>
        rw [hrec] at h
        simp only [] at h
        by_cases hle : r.updatedAt ≤ mr.1.updatedAt
        · rw [if_pos hle] at h; exact Option.noConfusion h
        · rw [if_neg hle] at h; exact Option.noConfusion h
    · intro h
      exact List.noConfusion h

theorem extractMin_perm (l : List CacheRow) (m : CacheRow) (rest : List CacheRow)
    (h : extractMin l = some (m, rest)) : l.Perm (m :: rest) := by
  induction l generalizing m rest with
  | nil => simp [extractMin] at h
  | cons r tail ih =>
    simp only [extractMin] at h
    cases hrec : extractMin tail with
    | none =>
      rw [hrec] at h
      have htail : tail = [] := (extractMin_eq_none tail).mp hrec
      subst htail
      simp only [Option.some.injEq, Prod.mk.injEq] at h
      obtain ⟨h1, h2⟩ := h
      subst h1
      subst h2
      exact List.Perm.refl _
    | some mr =>
      rw [hrec] at h
      simp only [] at h
      by_cases hle : r.updatedAt ≤ mr.1.updatedAt
      · rw [if_pos hle] at h
        simp only [Option.some.injEq, Prod.mk.injEq] at h
        obtain ⟨h1, h2⟩ := h
        subst h1
        subst h2
        exact List.Perm.refl _
      · rw [if_neg hle] at h
        simp only [Option.some.injEq, Prod.mk.injEq] at h
        obtain ⟨h1, h2⟩ := h
        subst h1
        subst h2
        have hperm : tail.Perm (mr.1 :: mr.2) := ih mr.1 mr.2 (by rw [hrec])
        exact (List.Perm.cons r hperm).trans (List.Perm.swap mr.1 r mr.2)

theorem extractMin_min (l : List CacheRow) (m : CacheRow) (rest : List CacheRow)
    (h : extractMin l = some (m, rest)) :
    ∀ x ∈ rest, m.updatedAt ≤ x.updatedAt := by
  induction l generalizing m rest with
  | nil => simp [extractMin] at h
  | cons r tail ih =>
    simp only [extractMin] at h
    cases hrec : extractMin tail with
    | none =>
      rw [hrec] at h
      simp only [Option.some.injEq, Prod.mk.injEq] at h
      obtain ⟨h1, h2⟩ := h
      subst h1
      subst h2
      intro x hx
      simp at hx
    | some mr =>
      rw [hrec] at h
      simp only [] at h
      have hmin : ∀ x ∈ mr.2, mr.1.updatedAt ≤ x.updatedAt := ih mr.1 mr.2 (by rw [hrec])
      have hmem : ∀ x ∈ tail, mr.1.updatedAt ≤ x.updatedAt := by
        intro x hx
        have := (extractMin_perm tail mr.1 mr.2 (by rw [hrec])).mem_iff.mp hx
        rcases List.mem_cons.mp this with h1 | h2
        · rw [h1]
        · exact hmin x h2
      by_cases hle : r.updatedAt ≤ mr.1.updatedAt
      · rw [if_pos hle] at h
        simp only [Option.some.injEq, Prod.mk.injEq] at h
        obtain ⟨h1, h2⟩ := h
        subst h1
        subst h2
        intro x hx
        exact Nat.le_trans hle (hmem x hx)
      · rw [if_neg hle] at h
        simp only [Option.some.injEq, Prod.mk.injEq] at h
        obtain ⟨h1, h2⟩ := h
        subst h1
        subst h2
        intro x hx
        rcases List.mem_cons.mp hx with h1 | h2
        · rw [h1]
          exact Nat.le_of_lt (Nat.lt_of_not_le hle)
        · exact hmin x h2

theorem pruneLoop_perm (n : Nat) (l : List CacheRow) :
    l.Perm ((pruneLoop n l).1 ++ (pruneLoop n l).2) := by
  induction n generalizing l with
  | zero => simp [pruneLoop]
  | succ n ih =>
    simp only [pruneLoop]
    cases hx : extractMin l with
    | none => simp
    | some mr =>
      simp only []
      have h1 : l.Perm (mr.1 :: mr.2) := extractMin_perm l mr.1 mr.2 hx
      have h2 : mr.2.Perm ((pruneLoop n mr.2).1 ++ (pruneLoop n mr.2).2) := ih mr.2
      exact h1.trans (List.Perm.cons mr.1 h2)

theorem pruneLoop_deleted_length (n : Nat) (l : List CacheRow) (h : n ≤ l.length) :
    (pruneLoop n l).1.length = n := by
  induction n generalizing l with
  | zero => simp [pruneLoop]
  | succ n ih =>
    simp only [pruneLoop]
    cases hx : extractMin l with
    | none =>
      exfalso
      have : l = [] := (extractMin_eq_none l).mp hx
      subst this
      simp at h
    | some mr =>
      simp only [List.length_cons]
      have hlen : mr.2.length + 1 = l.length := by
        have := (extractMin_perm l mr.1 mr.2 hx).length_eq
        simpa using this.symm
      rw [ih mr.2 (by omega)]

theorem pruneLoop_kept_length (n : Nat) (l : List CacheRow) (h : n ≤ l.length) :
    (pruneLoop n l).2.length = l.length - n := by
  have hperm := (pruneLoop_perm n l).length_eq
  rw [List.length_append] at hperm
  have hdel := pruneLoop_deleted_length n l h
  omega

theorem pruneLoop_kept_mem (n : Nat) (l : List CacheRow) :
    ∀ x ∈ (pruneLoop n l).2, x ∈ l := by
  intro x hx
  have := (pruneLoop_perm n l).mem_iff.mpr (List.mem_append.mpr (Or.inr hx))
  exact this

theorem pruneLoop_min (n : Nat) (l : List CacheRow) :
    ∀ d ∈ (pruneLoop n l).1, ∀ k ∈ (pruneLoop n l).2, d.updatedAt ≤ k.updatedAt := by
  induction n generalizing l with
  | zero => simp [pruneLoop]
  | succ n ih =>
    simp only [pruneLoop]
    cases hx : extractMin l with
    | none => simp
    | some mr =>
      simp only []
      intro d hd k hk
      rcases List.mem_cons.mp hd with h1 | h2
      · rw [h1]
        exact extractMin_min l mr.1 mr.2 hx k (pruneLoop_kept_mem n mr.2 k hk)
      · exact ih mr.2 d h2 k hk

/-- **C6.** `pruneEmbeddingCacheIfNeeded` is a no-op when caching is
disabled, when `maxEntries` is unset or non-positive, or when the row count
is at most `maxEntries`; otherwise it deletes exactly `count - maxEntries`
rows — rows whose `updated_at` is no larger than that of any surviving row —
leaving exactly `maxEntries` rows (the survivors being a sub-multiset of the
original store). -/
theorem pruneEmbeddingCacheIfNeeded_spec (store : List CacheRow) (max : Int) :
    (∀ me, pruneEmbeddingCacheIfNeeded false me store = store) ∧
    (pruneEmbeddingCacheIfNeeded true none store = store) ∧
    (max ≤ 0 → pruneEmbeddingCacheIfNeeded true (some max) store = store) ∧
    ((store.length : Int) ≤ max → pruneEmbeddingCacheIfNeeded true (some max) store = store) ∧
    (0 < max → max < (store.length : Int) →
      (pruneEmbeddingCacheIfNeeded true (some max) store).length = max.toNat ∧
      (pruneLoop (store.length - max.toNat) store).1.length = store.length - max.toNat ∧
      (∀ d ∈ (pruneLoop (store.length - max.toNat) store).1,
        ∀ k ∈ pruneEmbeddingCacheIfNeeded true (some max) store,
          d.updatedAt ≤ k.updatedAt) ∧
      store.Perm ((pruneLoop (store.length - max.toNat) store).1 ++
        pruneEmbeddingCacheIfNeeded true (some max) store)) := by
  refine ⟨?_, ?_, ?_, ?_, ?_⟩
  · intro me; rfl
  · rfl
  · intro hle
    unfold pruneEmbeddingCacheIfNeeded
    simp [if_pos hle]
  · intro hle
    unfold pruneEmbeddingCacheIfNeeded
    have hpos : ¬ max ≤ 0 ∨ max ≤ 0 := (em _).symm
    by_cases h0 : max ≤ 0
    · simp [if_pos h0]
    · simp [if_neg h0, if_pos hle]
  · intro hpos hlt
    have h0 : ¬ max ≤ 0 := by omega
    have hcle : ¬ ((store.length : Int) ≤ max) := by omega
    have hxle : max.toNat ≤ store.length := by omega
    have hprune : pruneEmbeddingCacheIfNeeded true (some max) store =
        (pruneLoop (store.length - max.toNat) store).2 := by
      unfold pruneEmbeddingCacheIfNeeded
      simp [if_neg h0, if_neg hcle]
    refine ⟨?_, ?_, ?_, ?_⟩
    · rw [hprune, pruneLoop_kept_length _ _ (by omega)]
      omega
    · exact pruneLoop_deleted_length _ _ (by omega)
    · rw [hprune]
      exact pruneLoop_min _ _
    · rw [hprune]
      exact pruneLoop_perm _ _

/-- Witness for C6: a 3-row store pruned to `max = 2` keeps the 2 rows with
the largest `updated_at` and deletes the single oldest row. -/
theorem pruneEmbeddingCacheIfNeeded_spec_witness :
    (∀ me, pruneEmbeddingCacheIfNeeded false me
        [⟨"p", "m", "k", "h1", [1], 1, 5⟩, ⟨"p", "m", "k", "h2", [2], 1, 3⟩,
         ⟨"p", "m", "k", "h3", [3], 1, 9⟩] =
      [⟨"p", "m", "k", "h1", [1], 1, 5⟩, ⟨"p", "m", "k", "h2", [2], 1, 3⟩,
       ⟨"p", "m", "k", "h3", [3], 1, 9⟩]) ∧
    (pruneEmbeddingCacheIfNeeded true none
        [⟨"p", "m", "k", "h1", [1], 1, 5⟩, ⟨"p", "m", "k", "h2", [2], 1, 3⟩,
         ⟨"p", "m", "k", "h3", [3], 1, 9⟩] =
      [⟨"p", "m", "k", "h1", [1], 1, 5⟩, ⟨"p", "m", "k", "h2", [2], 1, 3⟩,
       ⟨"p", "m", "k", "h3", [3], 1, 9⟩]) ∧
    ((2 : Int) ≤ 0 → pruneEmbeddingCacheIfNeeded true (some 2)
        [⟨"p", "m", "k", "h1", [1], 1, 5⟩, ⟨"p", "m", "k", "h2", [2], 1, 3⟩,
         ⟨"p", "m", "k", "h3", [3], 1, 9⟩] =
      [⟨"p", "m", "k", "h1", [1], 1, 5⟩, ⟨"p", "m", "k", "h2", [2], 1, 3⟩,
       ⟨"p", "m", "k", "h3", [3], 1, 9⟩]) ∧
    ((([⟨"p", "m", "k", "h1", [1], 1, 5⟩, ⟨"p", "m", "k", "h2", [2], 1, 3⟩,
        ⟨"p", "m", "k", "h3", [3], 1, 9⟩] : List CacheRow).length : Int) ≤ 2 →
      pruneEmbeddingCacheIfNeeded true (some 2)
        [⟨"p", "m", "k", "h1", [1], 1, 5⟩, ⟨"p", "m", "k", "h2", [2], 1, 3⟩,
         ⟨"p", "m", "k", "h3", [3], 1, 9⟩] =
      [⟨"p", "m", "k", "h1", [1], 1, 5⟩, ⟨"p", "m", "k", "h2", [2], 1, 3⟩,
       ⟨"p", "m", "k", "h3", [3], 1, 9⟩]) ∧
    ((0 : Int) < 2 → (2 : Int) < (([⟨"p", "m", "k", "h1", [1], 1, 5⟩,
        ⟨"p", "m", "k", "h2", [2], 1, 3⟩,
        ⟨"p", "m", "k", "h3", [3], 1, 9⟩] : List CacheRow).length : Int) →
      (pruneEmbeddingCacheIfNeeded true (some 2)
        [⟨"p", "m", "k", "h1", [1], 1, 5⟩, ⟨"p", "m", "k", "h2", [2], 1, 3⟩,
         ⟨"p", "m", "k", "h3", [3], 1, 9⟩]).length = (2 : Int).toNat ∧
      (pruneLoop (([⟨"p", "m", "k", "h1", [1], 1, 5⟩, ⟨"p", "m", "k", "h2", [2], 1, 3⟩,
          ⟨"p", "m", "k", "h3", [3], 1, 9⟩] : List CacheRow).length - (2 : Int).toNat)
        [⟨"p", "m", "k", "h1", [1], 1, 5⟩, ⟨"p", "m", "k", "h2", [2], 1, 3⟩,
         ⟨"p", "m", "k", "h3", [3], 1, 9⟩]).1.length =
        ([⟨"p", "m", "k", "h1", [1], 1, 5⟩, ⟨"p", "m", "k", "h2", [2], 1, 3⟩,
          ⟨"p", "m", "k", "h3", [3], 1, 9⟩] : List CacheRow).length - (2 : Int).toNat ∧
      (∀ d ∈ (pruneLoop (([⟨"p", "m", "k", "h1", [1], 1, 5⟩,
          ⟨"p", "m", "k", "h2", [2], 1, 3⟩,
          ⟨"p", "m", "k", "h3", [3], 1, 9⟩] : List CacheRow).length - (2 : Int).toNat)
          [⟨"p", "m", "k", "h1", [1], 1, 5⟩, ⟨"p", "m", "k", "h2", [2], 1, 3⟩,
           ⟨"p", "m", "k", "h3", [3], 1, 9⟩]).1,
        ∀ k ∈ pruneEmbeddingCacheIfNeeded true (some 2)
          [⟨"p", "m", "k", "h1", [1], 1, 5⟩, ⟨"p", "m", "k", "h2", [2], 1, 3⟩,
           ⟨"p", "m", "k", "h3", [3], 1, 9⟩], d.updatedAt ≤ k.updatedAt) ∧
      ([⟨"p", "m", "k", "h1", [1], 1, 5⟩, ⟨"p", "m", "k", "h2", [2], 1, 3⟩,
        ⟨"p", "m", "k", "h3", [3], 1, 9⟩] : List CacheRow).Perm
        ((pruneLoop (([⟨"p", "m", "k", "h1", [1], 1, 5⟩, ⟨"p", "m", "k", "h2", [2], 1, 3⟩,
            ⟨"p", "m", "k", "h3", [3], 1, 9⟩] : List CacheRow).length - (2 : Int).toNat)
          [⟨"p", "m", "k", "h1", [1], 1, 5⟩, ⟨"p", "m", "k", "h2", [2], 1, 3⟩,
           ⟨"p", "m", "k", "h3", [3], 1, 9⟩]).1 ++
          pruneEmbeddingCacheIfNeeded true (some 2)
            [⟨"p", "m", "k", "h1", [1], 1, 5⟩, ⟨"p", "m", "k", "h2", [2], 1, 3⟩,
             ⟨"p", "m", "k", "h3", [3], 1, 9⟩])) :=
  pruneEmbeddingCacheIfNeeded_spec
    [⟨"p", "m", "k", "h1", [1], 1, 5⟩, ⟨"p", "m", "k", "h2", [2], 1, 3⟩,
     ⟨"p", "m", "k", "h3", [3], 1, 9⟩] 2

/-! ## C7: seeding is transactional -/

theorem seedLoop_committed (failAt : Option Nat) (rows : List CacheRow) :
    ∀ (i : Nat) (db : Db), (seedLoop failAt rows i db).1.committed = db.committed := by
  induction rows with
  | nil => intro i db; rfl
  | cons row rest ih =>
    intro i db
    simp only [seedLoop]
    by_cases hf : failAt = some i
    · rw [if_pos hf]
    · rw [if_neg hf]
      rw [ih]
      rfl

theorem seedLoop_none (rows : List CacheRow) :
    ∀ (i : Nat) (db : Db), seedLoop none rows i db = (rows.foldl dbInsert db, none) := by
  induction rows with
  | nil => intro i db; rfl
  | cons row rest ih =>
    intro i db
    simp only [seedLoop]
    rw [if_neg (by simp)]
    rw [ih]
    rfl

theorem foldl_dbInsert_txn (rows : List CacheRow) :
    ∀ (c s : List CacheRow),
      rows.foldl dbInsert ⟨c, some s⟩ = ⟨c, some (rows.foldl upsertRow s)⟩ := by
  induction rows with
  | nil => intro c s; rfl
  | cons row rest ih =>
    intro c s
    simp only [List.foldl_cons]
    have hstep : dbInsert ⟨c, some s⟩ row = ⟨c, some (upsertRow s row)⟩ := rfl
    rw [hstep]
    exact ih c (upsertRow s row)

theorem seedLoop_fails (k : Nat) (rows : List CacheRow) :
    ∀ (i : Nat) (db : Db), i ≤ k → k < i + rows.length →
      (seedLoop (some k) rows i db).2 = some "seed insert failed" := by
  induction rows with
  | nil =>
    intro i db h1 h2
    simp at h2
    omega
  | cons row rest ih =>
    intro i db h1 h2
    simp only [seedLoop]
    by_cases hf : (some k : Option Nat) = some i
    · rw [if_pos hf]
    · rw [if_neg hf]
      have hik : i ≠ k := fun he => hf (by rw [he])
      refine ih (i + 1) (dbInsert db row) (by omega) ?_
      simp only [List.length_cons] at h2
      omega

/-- **C7.** `seedEmbeddingCache` copies every source row into the committed
target state inside one transaction when nothing fails; when the source read
or any insert fails, the transaction is rolled back — the committed target
state is unchanged and no transaction is left open — and the error is
surfaced to the caller (`some e`), never swallowed.  With caching disabled
it is a no-op without error. -/
theorem seedEmbeddingCache_spec (db : Db) (sourceRows : List CacheRow) (k : Nat) :
    ((seedEmbeddingCache true db sourceRows false none).1.committed =
        sourceRows.foldl upsertRow db.committed ∧
     (seedEmbeddingCache true db sourceRows false none).2 = none) ∧
    ((seedEmbeddingCache true db sourceRows true none).1.committed = db.committed ∧
     (seedEmbeddingCache true db sourceRows true none).2 ≠ none) ∧
    (k < sourceRows.length →
      ((seedEmbeddingCache true db sourceRows false (some k)).1.committed = db.committed ∧
       (seedEmbeddingCache true db sourceRows false (some k)).1.txn = none ∧
       (seedEmbeddingCache true db sourceRows false (some k)).2 ≠ none)) ∧
    (seedEmbeddingCache false db sourceRows false none = (db, none)) := by
  refine ⟨?_, ?_, ?_, ?_⟩
  · unfold seedEmbeddingCache
    rw [if_neg (by decide), if_neg (by decide)]
    by_cases hemp : sourceRows.isEmpty = true
    · rw [if_pos hemp]
      have : sourceRows = [] := by
        cases sourceRows with
        | nil => rfl
        | cons a b => simp at hemp
      subst this
      exact ⟨rfl, rfl⟩
    · rw [if_neg hemp]
      rw [seedLoop_none sourceRows 0 (dbBegin db)]
      have hfold : sourceRows.foldl dbInsert (dbBegin db) =
          ⟨db.committed, some (sourceRows.foldl upsertRow db.committed)⟩ :=
        foldl_dbInsert_txn sourceRows db.committed db.committed
      rw [hfold]
      exact ⟨rfl, rfl⟩
  · unfold seedEmbeddingCache
    rw [if_neg (by decide), if_pos rfl]
    exact ⟨rfl, by simp⟩
  · intro hk
    have hemp : ¬ (sourceRows.isEmpty = true) := by
      cases sourceRows with
      | nil => simp at hk
      | cons a b => simp
    unfold seedEmbeddingCache
    rw [if_neg (by decide), if_neg (by decide), if_neg hemp]
    rcases hsl : seedLoop (some k) sourceRows 0 (dbBegin db) with ⟨db', err⟩
    have herr : err = some "seed insert failed" := by
      have := seedLoop_fails k sourceRows 0 (dbBegin db) (Nat.zero_le k) (by omega)
      rw [hsl] at this
      exact this
    subst herr
    have hcom : db'.committed = db.committed := by
      have := seedLoop_committed (some k) sourceRows 0 (dbBegin db)
      rw [hsl] at this
      exact this
    simp only []
    exact ⟨hcom, rfl, by simp⟩
  · rfl

/-- Witness for C7 at a concrete one-row source and a failing first insert. -/
theorem seedEmbeddingCache_spec_witness :
    ((seedEmbeddingCache true ⟨[], none⟩ [⟨"p", "m", "k", "h1", [1], 1, 5⟩] false
        none).1.committed =
      [⟨"p", "m", "k", "h1", [1], 1, 5⟩].foldl upsertRow ([] : List CacheRow) ∧
     (seedEmbeddingCache true ⟨[], none⟩ [⟨"p", "m", "k", "h1", [1], 1, 5⟩] false
        none).2 = none) ∧
    ((seedEmbeddingCache true ⟨[], none⟩ [⟨"p", "m", "k", "h1", [1], 1, 5⟩] true
        none).1.committed = ([] : List CacheRow) ∧
     (seedEmbeddingCache true ⟨[], none⟩ [⟨"p", "m", "k", "h1", [1], 1, 5⟩] true
        none).2 ≠ none) ∧
    (0 < ([⟨"p", "m", "k", "h1", [1], 1, 5⟩] : List CacheRow).length →
      ((seedEmbeddingCache true ⟨[], none⟩ [⟨"p", "m", "k", "h1", [1], 1, 5⟩] false
          (some 0)).1.committed = ([] : List CacheRow) ∧
       (seedEmbeddingCache true ⟨[], none⟩ [⟨"p", "m", "k", "h1", [1], 1, 5⟩] false
          (some 0)).1.txn = none ∧
       (seedEmbeddingCache true ⟨[], none⟩ [⟨"p", "m", "k", "h1", [1], 1, 5⟩] false
          (some 0)).2 ≠ none)) ∧
    (seedEmbeddingCache false ⟨[], none⟩ [⟨"p", "m", "k", "h1", [1], 1, 5⟩] false none =
      (⟨[], none⟩, none)) :=
  seedEmbeddingCache_spec ⟨[], none⟩ [⟨"p", "m", "k", "h1", [1], 1, 5⟩] 0

/-! ## C9: cache idempotence -/

theorem buildEmbeddingBatches_singleton (c : MemoryChunk) :
    buildEmbeddingBatches [c] = [[c]] := by
  unfold buildEmbeddingBatches
  simp only [buildGo]
  rw [if_neg (by simp)]
  by_cases h : EMBEDDING_BATCH_MAX_TOKENS < estimateEmbeddingTokens c.text
  · rw [if_pos ⟨rfl, h⟩]
    simp [buildGo]
  · rw [if_neg (fun hc => h hc.2)]
    simp [buildGo]

theorem getLast?_map_const {α β : Type} (l : List α) (v : α) (f : α → β)
    (hne : l ≠ []) (hall : ∀ x ∈ l, x = v) : (l.map f).getLast? = some (f v) := by
  induction l with
  | nil => exact absurd rfl hne
  | cons a rest ih =>
    cases rest with
    | nil => simp [hall a (by simp)]
    | cons b tail =>
      rw [List.map_cons, List.map_cons, List.getLast?_cons_cons]
      rw [← List.map_cons]
      exact ih (by simp) (fun x hx => hall x (List.mem_cons_of_mem a hx))

theorem keyMatches_replaced (r row : CacheRow)
    (h : keyMatches r row.provider row.model row.providerKey row.hash) :
    ({ r with
        embedding := row.embedding
        dims := row.dims
        updatedAt := row.updatedAt } : CacheRow) = row := by
  obtain ⟨h1, h2, h3, h4⟩ := h
  cases r
  cases row
  simp only [] at h1 h2 h3 h4
  simp [h1, h2, h3, h4]

theorem keyMatches_self (row : CacheRow) :
    keyMatches row row.provider row.model row.providerKey row.hash :=
  ⟨rfl, rfl, rfl, rfl⟩

theorem lookup_upsertRow (store : List CacheRow) (row : CacheRow) :
    (((upsertRow store row).filter (fun r =>
        decide (keyMatches r row.provider row.model row.providerKey row.hash))).map
      (fun r => r.embedding)).getLast? = some row.embedding := by
  unfold upsertRow
  by_cases hany : store.any (fun r =>
      decide (keyMatches r row.provider row.model row.providerKey row.hash)) = true
  · rw [if_pos hany]
    have hall : ∀ x ∈ (store.map (fun r =>
        if keyMatches r row.provider row.model row.providerKey row.hash
        then { r with
          embedding := row.embedding
          dims := row.dims
          updatedAt := row.updatedAt } else r)).filter (fun r =>
        decide (keyMatches r row.provider row.model row.providerKey row.hash)),
        x = row := by
      intro x hx
      rw [List.mem_filter] at hx
      obtain ⟨hxm, hxp⟩ := hx
      rw [List.mem_map] at hxm
      obtain ⟨r, hr, hgr⟩ := hxm
      by_cases hk : keyMatches r row.provider row.model row.providerKey row.hash
      · rw [← hgr]
        simp only [if_pos hk]
        exact keyMatches_replaced r row hk
      · exfalso
        rw [← hgr] at hxp
        simp only [if_neg hk] at hxp
        simp only [decide_eq_true_eq] at hxp
        exact hk hxp
    have hne : (store.map (fun r =>
        if keyMatches r row.provider row.model row.providerKey row.hash
        then { r with
          embedding := row.embedding
          dims := row.dims
          updatedAt := row.updatedAt } else r)).filter (fun r =>
        decide (keyMatches r row.provider row.model row.providerKey row.hash)) ≠ [] := by
      rw [List.any_eq_true] at hany
      obtain ⟨r, hr, hpr⟩ := hany
      have hk : keyMatches r row.provider row.model row.providerKey row.hash := by
        simpa using hpr
      have hmem : row ∈ (store.map (fun r =>
          if keyMatches r row.provider row.model row.providerKey row.hash
          then { r with
            embedding := row.embedding
            dims := row.dims
            updatedAt := row.updatedAt } else r)).filter (fun r =>
          decide (keyMatches r row.provider row.model row.providerKey row.hash)) := by
        rw [List.mem_filter]
        constructor
        · rw [List.mem_map]
          refine ⟨r, hr, ?_⟩
          simp only [if_pos hk]
          exact keyMatches_replaced r row hk
        · simp only [decide_eq_true_eq]
          exact keyMatches_self row
      intro hnil
      rw [hnil] at hmem
      simp at hmem
    exact getLast?_map_const _ row _ hne hall
  · rw [if_neg hany]
    have hstore : store.filter (fun r =>
        decide (keyMatches r row.provider row.model row.providerKey row.hash)) = [] := by
      rw [List.filter_eq_nil_iff]
      intro r hr
      intro hpr
      exact hany (List.any_eq_true.mpr ⟨r, hr, hpr⟩)
    rw [List.filter_append, hstore]
    rw [List.filter_cons_of_pos (by simpa using keyMatches_self row)]
    simp

theorem loadEmbeddingCache_upsert (store : List CacheRow) (pid pmodel pkey h : String)
    (v : Vec) (now : Nat) (hashes : List String) (hne : h ≠ "") (hmem : h ∈ hashes) :
    loadEmbeddingCache true (upsertRow store ⟨pid, pmodel, pkey, h, v, v.length, now⟩)
      pid pmodel pkey hashes h = some v := by
  unfold loadEmbeddingCache
  rw [if_neg (by decide), if_neg hne, if_neg (by simp [hmem])]
  exact lookup_upsertRow store ⟨pid, pmodel, pkey, h, v, v.length, now⟩

theorem embedChunksInBatches_single_miss (pid pmodel pkey : String) (f : String → Vec)
    (now : Nat) (store : List CacheRow) (c : MemoryChunk)
    (hmiss : isHit (loadEmbeddingCache true store pid pmodel pkey [c.hash]) c = false) :
    embedChunksInBatches pid pmodel pkey true (fun ts => ts.map f) now store [c] =
      ⟨[f c.text], upsertEmbeddingCache true pid pmodel pkey now store [(c.hash, f c.text)],
        [[c.text]]⟩ := by
  unfold embedChunksInBatches
  rw [if_neg (by simp)]
  have hmap : ([c].map fun c => c.hash) = [c.hash] := rfl
  rw [hmap]
  have hclass : classifyGo (loadEmbeddingCache true store pid pmodel pkey [c.hash]) [c] 0
      (List.replicate ([c] : List MemoryChunk).length []) [] = ([[]], [(0, c)]) := by
    simp only [List.length_cons, List.length_nil, List.replicate]
    simp only [classifyGo]
    unfold isHit at hmiss
    cases hh : hitOf (loadEmbeddingCache true store pid pmodel pkey [c.hash]) c with
    | none => rfl
    | some v =>
      rw [hh] at hmiss
      simp only [decide_eq_false_iff_not] at hmiss
      simp only [if_neg hmiss]
      rfl
  simp only [hclass]
  rw [if_neg (by simp)]
  have hmc : ([(0, c)] : List (Nat × MemoryChunk)).map Prod.snd = [c] := rfl
  rw [hmc, buildEmbeddingBatches_singleton]
  have hloop := embedMissingLoop_spec f [(0, c)] [[c]] 0 [[]] [] (by simp)
  rw [hloop]
  simp [missUpdates, cacheUpdates, setMany]

theorem embedChunksInBatches_single_hit (pid pmodel pkey : String) (f : String → Vec)
    (now : Nat) (store : List CacheRow) (c : MemoryChunk) (v : Vec)
    (hhit : hitOf (loadEmbeddingCache true store pid pmodel pkey [c.hash]) c = some v)
    (hv : 0 < v.length) :
    embedChunksInBatches pid pmodel pkey true (fun ts => ts.map f) now store [c] =
      ⟨[v], store, []⟩ := by
  unfold embedChunksInBatches
  rw [if_neg (by simp)]
  have hmap : ([c].map fun c => c.hash) = [c.hash] := rfl
  rw [hmap]
  have hclass : classifyGo (loadEmbeddingCache true store pid pmodel pkey [c.hash]) [c] 0
      (List.replicate ([c] : List MemoryChunk).length []) [] = ([v], []) := by
    simp only [List.length_cons, List.length_nil, List.replicate]
    simp only [classifyGo]
    rw [hhit]
    simp only [if_pos hv]
    rfl
  simp only [hclass]
  simp

/-- **C9.** Embedding the same chunk twice under the same provider, model and
provider key issues exactly one provider call.  Starting from an empty store,
the first call sends the chunk's text to the provider once
(`sentBatches = [[c.text]]`) and upserts the resulting vector; the second
call, against the store the first call produced, sends nothing
(`sentBatches = []`), leaves the store unchanged, and returns the cached
vector. -/
theorem cache_idempotent (pid pmodel pkey : String) (f : String → Vec) (now now2 : Nat)
    (c : MemoryChunk) (hh : c.hash ≠ "") (hf : f c.text ≠ []) :
    embedChunksInBatches pid pmodel pkey true (fun ts => ts.map f) now [] [c] =
      ⟨[f c.text], upsertEmbeddingCache true pid pmodel pkey now [] [(c.hash, f c.text)],
        [[c.text]]⟩ ∧
    embedChunksInBatches pid pmodel pkey true (fun ts => ts.map f) now2
        (embedChunksInBatches pid pmodel pkey true (fun ts => ts.map f) now [] [c]).store
        [c] =
      ⟨[f c.text],
       (embedChunksInBatches pid pmodel pkey true (fun ts => ts.map f) now [] [c]).store,
       []⟩ := by
  have h1 : embedChunksInBatches pid pmodel pkey true (fun ts => ts.map f) now [] [c] =
      ⟨[f c.text], upsertEmbeddingCache true pid pmodel pkey now [] [(c.hash, f c.text)],
        [[c.text]]⟩ := by
    apply embedChunksInBatches_single_miss
    simp [isHit, hitOf, loadEmbeddingCache, hh]
  refine ⟨h1, ?_⟩
  rw [h1]
  simp only []
  have hstore : upsertEmbeddingCache true pid pmodel pkey now [] [(c.hash, f c.text)] =
      upsertRow [] ⟨pid, pmodel, pkey, c.hash, f c.text, (f c.text).length, now⟩ := by
    unfold upsertEmbeddingCache
    rw [if_neg (by decide), if_neg (by simp)]
    rfl
  rw [hstore]
  apply embedChunksInBatches_single_hit
  · unfold hitOf
    rw [if_pos hh]
    exact loadEmbeddingCache_upsert [] pid pmodel pkey c.hash (f c.text) now [c.hash] hh
      (by simp)
  · exact List.length_pos.mpr hf

/-- Witness for C9 at a concrete chunk and provider function. -/
theorem cache_idempotent_witness :
    embedChunksInBatches "openai" "te3" "k1" true
        (fun ts => ts.map (fun s => [(s.length : Int)])) 10 []
        [⟨"hello", "h1", 1, 2⟩] =
      ⟨[[(5 : Int)]], upsertEmbeddingCache true "openai" "te3" "k1" 10 []
        [("h1", [(5 : Int)])], [["hello"]]⟩ ∧
    embedChunksInBatches "openai" "te3" "k1" true
        (fun ts => ts.map (fun s => [(s.length : Int)])) 20
        (embedChunksInBatches "openai" "te3" "k1" true
          (fun ts => ts.map (fun s => [(s.length : Int)])) 10 []
          [⟨"hello", "h1", 1, 2⟩]).store
        [⟨"hello", "h1", 1, 2⟩] =
      ⟨[[(5 : Int)]],
       (embedChunksInBatches "openai" "te3" "k1" true
         (fun ts => ts.map (fun s => [(s.length : Int)])) 10 []
         [⟨"hello", "h1", 1, 2⟩]).store,
       []⟩ :=
  cache_idempotent "openai" "te3" "k1" (fun s => [(s.length : Int)]) 10 20
    ⟨"hello", "h1", 1, 2⟩ (by decide) (by decide)

/-! ## C10: a cache hit requires a non-empty hash and a non-empty vector -/

theorem isHit_false_iff (cached : String → Option Vec) (c : MemoryChunk) :
    isHit cached c = false ↔
      (c.hash = "" ∨ cached c.hash = none ∨ cached c.hash = some []) := by
  unfold isHit hitOf
  by_cases hh : c.hash = ""
  · rw [if_neg (by simp [hh])]
    simp [hh]
  · rw [if_pos hh]
    cases hc : cached c.hash with
    | none => simp [hh]
    | some v =>
      cases v with
      | nil => simp [hh]
      | cons a t => simp [hh]

/-- **C10.** In every embedding path a chunk is served from the cache only
when its hash is non-empty and the cached vector is non-empty: the shared
classification loop (used verbatim by the inline, OpenAI-batch and
Gemini-batch paths) puts a chunk into `missing` — so it is re-embedded —
exactly when its hash is empty, there is no cached entry, or the cached
vector is empty.  Yet `upsertEmbeddingCache` does store an empty vector when
one is produced, and a chunk whose hash maps to that stored empty vector is
still classified as a miss.  Both batch paths build exactly one request per
miss. -/
theorem cache_hit_requires_nonempty (cached : String → Option Vec)
    (chunks : List MemoryChunk) (j : Nat) (c : MemoryChunk)
    (pid pmodel pkey : String) (now : Nat) (store : List CacheRow) (h : String)
    (hashText : String → String) (openAiModel entryPath source : String)
    (br : BatchRunnerResult) (hne : h ≠ "") :
    ((j, c) ∈ (classifyGo cached chunks 0 (List.replicate chunks.length []) []).2 ↔
      (chunks[j]? = some c ∧
        (c.hash = "" ∨ cached c.hash = none ∨ cached c.hash = some []))) ∧
    (isHit cached c = true ↔
      (c.hash ≠ "" ∧ ∃ v, cached c.hash = some v ∧ 0 < v.length)) ∧
    (loadEmbeddingCache true
        (upsertEmbeddingCache true pid pmodel pkey now store [(h, [])])
        pid pmodel pkey [h] h = some []) ∧
    (∀ c2 : MemoryChunk, c2.hash = h →
      isHit (loadEmbeddingCache true
        (upsertEmbeddingCache true pid pmodel pkey now store [(h, [])])
        pid pmodel pkey [h]) c2 = false) ∧
    ((embedChunksWithOpenAiBatch hashText pid pmodel pkey openAiModel true now store
        entryPath source br chunks).requests =
      (missOf (loadEmbeddingCache true store pid pmodel pkey
          (chunks.map (fun c => c.hash))) chunks 0).map (fun item =>
        ⟨hashText (customIdSeed source entryPath item.2 item.1), openAiModel,
          item.2.text⟩)) ∧
    ((embedChunksWithGeminiBatch hashText pid pmodel pkey true now store
        entryPath source br chunks).requests =
      (missOf (loadEmbeddingCache true store pid pmodel pkey
          (chunks.map (fun c => c.hash))) chunks 0).map (fun item =>
        ⟨hashText (customIdSeed source entryPath item.2 item.1), item.2.text,
          "RETRIEVAL_DOCUMENT"⟩)) := by
  have hupsert : upsertEmbeddingCache true pid pmodel pkey now store [(h, [])] =
      upsertRow store ⟨pid, pmodel, pkey, h, [], 0, now⟩ := by
    unfold upsertEmbeddingCache
    rw [if_neg (by decide), if_neg (by simp)]
    rfl
  have hlook : loadEmbeddingCache true
      (upsertEmbeddingCache true pid pmodel pkey now store [(h, [])])
      pid pmodel pkey [h] h = some [] := by
    rw [hupsert]
    have := loadEmbeddingCache_upsert store pid pmodel pkey h [] now [h] hne (by simp)
    simpa using this
  refine ⟨?_, ?_, hlook, ?_, ?_, ?_⟩
  · rw [classifyGo_snd]
    simp only [List.nil_append]
    rw [missOf_mem_iff]
    constructor
    · rintro ⟨k, hjk, hk, hmiss⟩
      have hkj : k = j := by omega
      subst hkj
      exact ⟨hk, (isHit_false_iff cached c).mp hmiss⟩
    · rintro ⟨hk, hor⟩
      exact ⟨j, by omega, hk, (isHit_false_iff cached c).mpr hor⟩
  · constructor
    · intro htrue
      have hiff := isHit_false_iff cached c
      constructor
      · intro hhash
        have : isHit cached c = false := hiff.mpr (Or.inl hhash)
        rw [htrue] at this
        exact Bool.noConfusion this
      · cases hc : cached c.hash with
        | none =>
          exfalso
          have : isHit cached c = false := hiff.mpr (Or.inr (Or.inl hc))
          rw [htrue] at this
          exact Bool.noConfusion this
        | some v =>
          refine ⟨v, rfl, ?_⟩
          cases v with
          | nil =>
            exfalso
            have : isHit cached c = false := hiff.mpr (Or.inr (Or.inr hc))
            rw [htrue] at this
            exact Bool.noConfusion this
          | cons a t => simp
    · rintro ⟨hhash, v, hv, hlen⟩
      unfold isHit hitOf
      rw [if_pos hhash, hv]
      simpa using hlen
  · intro c2 hc2
    rw [isHit_false_iff]
    rw [hc2]
    exact Or.inr (Or.inr hlook)
  · unfold embedChunksWithOpenAiBatch
    by_cases hz : chunks.length = 0
    · rw [if_pos hz]
      have : chunks = [] := List.eq_nil_of_length_eq_zero hz
      subst this
      simp [missOf]
    · rw [if_neg hz]
      have hsnd : (classifyGo (loadEmbeddingCache true store pid pmodel pkey
          (chunks.map (fun c => c.hash))) chunks 0
          (List.replicate chunks.length []) []).2 =
          missOf (loadEmbeddingCache true store pid pmodel pkey
            (chunks.map (fun c => c.hash))) chunks 0 := by
        rw [classifyGo_snd]; simp
      by_cases hm : (classifyGo (loadEmbeddingCache true store pid pmodel pkey
          (chunks.map (fun c => c.hash))) chunks 0
          (List.replicate chunks.length []) []).2.length = 0
      · rw [if_pos hm]
        have : missOf (loadEmbeddingCache true store pid pmodel pkey
            (chunks.map (fun c => c.hash))) chunks 0 = [] := by
          rw [← hsnd]
          exact List.eq_nil_of_length_eq_zero hm
        rw [this]
        rfl
      · rw [if_neg hm]
        cases br with
        | positional vs => simp only []; rw [hsnd]
        | byId mm => simp only []; rw [hsnd]
  · unfold embedChunksWithGeminiBatch
    by_cases hz : chunks.length = 0
    · rw [if_pos hz]
      have : chunks = [] := List.eq_nil_of_length_eq_zero hz
      subst this
      simp [missOf]
    · rw [if_neg hz]
      have hsnd : (classifyGo (loadEmbeddingCache true store pid pmodel pkey
          (chunks.map (fun c => c.hash))) chunks 0
          (List.replicate chunks.length []) []).2 =
          missOf (loadEmbeddingCache true store pid pmodel pkey
            (chunks.map (fun c => c.hash))) chunks 0 := by
        rw [classifyGo_snd]; simp
      by_cases hm : (classifyGo (loadEmbeddingCache true store pid pmodel pkey
          (chunks.map (fun c => c.hash))) chunks 0
          (List.replicate chunks.length []) []).2.length = 0
      · rw [if_pos hm]
        have : missOf (loadEmbeddingCache true store pid pmodel pkey
            (chunks.map (fun c => c.hash))) chunks 0 = [] := by
          rw [← hsnd]
          exact List.eq_nil_of_length_eq_zero hm
        rw [this]
        rfl
      · rw [if_neg hm]
        cases br with
        | positional vs => simp only []; rw [hsnd]
        | byId mm => simp only []; rw [hsnd]

/-- Witness for C10 at a one-chunk input whose cached vector is empty. -/
theorem cache_hit_requires_nonempty_witness :
    ((0, (⟨"t", "hh", 1, 1⟩ : MemoryChunk)) ∈
        (classifyGo (fun _ => some []) [⟨"t", "hh", 1, 1⟩] 0
          (List.replicate ([⟨"t", "hh", 1, 1⟩] : List MemoryChunk).length []) []).2 ↔
      (([⟨"t", "hh", 1, 1⟩] : List MemoryChunk)[0]? = some ⟨"t", "hh", 1, 1⟩ ∧
        ((⟨"t", "hh", 1, 1⟩ : MemoryChunk).hash = "" ∨
          (fun _ => some ([] : Vec)) (⟨"t", "hh", 1, 1⟩ : MemoryChunk).hash = none ∨
          (fun _ => some ([] : Vec)) (⟨"t", "hh", 1, 1⟩ : MemoryChunk).hash = some []))) ∧
    (isHit (fun _ => some []) ⟨"t", "hh", 1, 1⟩ = true ↔
      ((⟨"t", "hh", 1, 1⟩ : MemoryChunk).hash ≠ "" ∧
        ∃ v, (fun _ => some ([] : Vec)) (⟨"t", "hh", 1, 1⟩ : MemoryChunk).hash = some v ∧
          0 < v.length)) ∧
    (loadEmbeddingCache true
        (upsertEmbeddingCache true "openai" "te3" "k1" 10 [] [("hh", [])])
        "openai" "te3" "k1" ["hh"] "hh" = some []) ∧
    (∀ c2 : MemoryChunk, c2.hash = "hh" →
      isHit (loadEmbeddingCache true
        (upsertEmbeddingCache true "openai" "te3" "k1" 10 [] [("hh", [])])
        "openai" "te3" "k1" ["hh"]) c2 = false) ∧
    ((embedChunksWithOpenAiBatch id "openai" "te3" "k1" "te3" true 10 []
        "p" "memory" (.positional []) [⟨"t", "hh", 1, 1⟩]).requests =
      (missOf (loadEmbeddingCache true [] "openai" "te3" "k1"
          (([⟨"t", "hh", 1, 1⟩] : List MemoryChunk).map (fun c => c.hash)))
          [⟨"t", "hh", 1, 1⟩] 0).map (fun item =>
        ⟨id (customIdSeed "memory" "p" item.2 item.1), "te3", item.2.text⟩)) ∧
    ((embedChunksWithGeminiBatch id "openai" "te3" "k1" true 10 []
        "p" "memory" (.positional []) [⟨"t", "hh", 1, 1⟩]).requests =
      (missOf (loadEmbeddingCache true [] "openai" "te3" "k1"
          (([⟨"t", "hh", 1, 1⟩] : List MemoryChunk).map (fun c => c.hash)))
          [⟨"t", "hh", 1, 1⟩] 0).map (fun item =>
        ⟨id (customIdSeed "memory" "p" item.2 item.1), item.2.text,
          "RETRIEVAL_DOCUMENT"⟩)) :=
  cache_hit_requires_nonempty (fun _ => some []) [⟨"t", "hh", 1, 1⟩] 0 ⟨"t", "hh", 1, 1⟩
    "openai" "te3" "k1" 10 [] "hh" id "te3" "p" "memory" (.positional []) (by decide)

/-! ## C1: output length and positional order -/

theorem mapGet_of_nodup {α : Type} (mapping : List (String × α)) (k : String) (v : α)
    (hnd : (mapping.map Prod.fst).Nodup) (hmem : (k, v) ∈ mapping) :
    mapGet mapping k = some v := by
  induction mapping with
  | nil => simp at hmem
  | cons p rest ih =>
    simp only [List.map_cons, List.nodup_cons] at hnd
    rcases List.mem_cons.mp hmem with heq | htail
    · subst heq
      unfold mapGet
      rw [List.filter_cons_of_pos (by simp)]
      have hknotin : k ∉ rest.map Prod.fst := by simpa using hnd.1
      have hrest : rest.filter (fun q => q.1 == k) = [] := by
        rw [List.filter_eq_nil_iff]
        intro q hq hbeq
        have hk : q.1 = k := by simpa using hbeq
        exact hknotin (hk ▸ List.mem_map_of_mem Prod.fst hq)
      simp [hrest]
    · have hne : (p.1 == k) = false := by
        cases hb : (p.1 == k) with
        | false => rfl
        | true =>
          exfalso
          have hk : p.1 = k := by simpa using hb
          have hkm : k ∈ rest.map Prod.fst := by
            rw [List.mem_map]
            exact ⟨(k, v), htail, rfl⟩
          rw [hk] at hnd
          exact hnd.1 hkm
      have hmg := ih hnd.2 htail
      unfold mapGet at hmg ⊢
      simpa [hne] using hmg

theorem reconcileLoop_eq {α : Type} (mapping : List (String × (Nat × String)))
    (cid : α → String) (g : α → Vec) (idh : α → Nat × String) (l : List α) :
    ∀ (emb : List Vec),
      (∀ it ∈ l, mapGet mapping (cid it) = some (idh it)) →
      reconcileLoop mapping (l.map (fun it => (cid it, g it))) emb =
        (setMany emb (l.map (fun it => ((idh it).1, g it))),
         l.map (fun it => ((idh it).2, g it))) := by
  induction l with
  | nil => intro emb _; rfl
  | cons a rest ih =>
    intro emb hget
    simp only [List.map_cons]
    simp only [reconcileLoop]
    rw [hget a (List.mem_cons_self a rest)]
    simp only []
    rw [ih (emb.set (idh a).1 (g a)) (fun it hit => hget it (List.mem_cons_of_mem a hit))]
    rw [setMany_cons]

theorem reconcile_missing (hashText : String → String) (source entryPath : String)
    (f : String → Vec) (L : List (Nat × MemoryChunk))
    (hnd : (L.map (fun it => hashText (customIdSeed source entryPath it.2 it.1))).Nodup)
    (emb : List Vec) :
    reconcileLoop
      (L.map (fun item => (hashText (customIdSeed source entryPath item.2 item.1),
        (item.1, item.2.hash))))
      (L.map (fun it => (hashText (customIdSeed source entryPath it.2 it.1), f it.2.text)))
      emb =
      (setMany emb (missUpdates f L), cacheUpdates f L) := by
  have hexp : ∀ it ∈ L,
      mapGet (L.map (fun item => (hashText (customIdSeed source entryPath item.2 item.1),
        (item.1, item.2.hash))))
      (hashText (customIdSeed source entryPath it.2 it.1)) = some (it.1, it.2.hash) := by
    intro it hit
    apply mapGet_of_nodup
    · simpa [Function.comp] using hnd
    · rw [List.mem_map]
      exact ⟨it, hit, rfl⟩
  exact reconcileLoop_eq
    (L.map (fun item => (hashText (customIdSeed source entryPath item.2 item.1),
      (item.1, item.2.hash))))
    (fun it => hashText (customIdSeed source entryPath it.2 it.1))
    (fun it => f it.2.text) (fun it => (it.1, it.2.hash)) L emb hexp

theorem classify_fst_no_miss (cached : String → Option Vec) (f : String → Vec)
    (chunks : List MemoryChunk) (hm : missOf cached chunks 0 = []) :
    (classifyGo cached chunks 0 (List.replicate chunks.length []) []).1 =
      chunks.map (expectedVec cached f) := by
  rw [classifyGo_fst]
  have hsc := setMany_classify cached f chunks
  rw [hm] at hsc
  simpa [missUpdates] using hsc

set_option maxHeartbeats 1600000 in
/-- **C1.** For every input list of `N` chunks, under any mix of cache hits
and misses, the service returns exactly `N` vectors with element `i` the
vector for input chunk `i`: the inline path returns
`chunks.map (expectedVec cached f)` (cache hit at a hit position, the
provider's vector for the chunk's text at a miss position); with batch mode
off, `embedChunksForFile` is the inline path; and on the OpenAI/Gemini batch
paths the same holds both when the resolved batch value is the positional
fallback array and when it is a custom-id map covering each request
(provided the custom ids are distinct, as produced by `hashText`). -/
theorem embedChunks_length_and_order (pid pmodel pkey : String) (cacheEnabled : Bool)
    (f : String → Vec) (now : Nat) (store : List CacheRow) (chunks : List MemoryChunk)
    (hashText : String → String) (openAiModel entryPath source : String)
    (st : BatchState) (hasOpenAi hasGemini : Bool) (oaRes gmRes : BatchRunnerResult)
    (hnodup : ((missOf (loadEmbeddingCache cacheEnabled store pid pmodel pkey
        (chunks.map (fun c => c.hash))) chunks 0).map
      (fun it => hashText (customIdSeed source entryPath it.2 it.1))).Nodup) :
    ((embedChunksInBatches pid pmodel pkey cacheEnabled (fun ts => ts.map f) now store
        chunks).embeddings =
      chunks.map (expectedVec (loadEmbeddingCache cacheEnabled store pid pmodel pkey
        (chunks.map (fun c => c.hash))) f)) ∧
    ((embedChunksInBatches pid pmodel pkey cacheEnabled (fun ts => ts.map f) now store
        chunks).embeddings.length = chunks.length) ∧
    (st.batchEnabled = false →
      embedChunksForFile st hashText pid pmodel pkey openAiModel hasOpenAi hasGemini
          cacheEnabled (fun ts => ts.map f) now store entryPath source oaRes gmRes chunks =
        (embedChunksInBatches pid pmodel pkey cacheEnabled (fun ts => ts.map f) now store
          chunks).embeddings) ∧
    ((embedChunksWithOpenAiBatch hashText pid pmodel pkey openAiModel cacheEnabled now
        store entryPath source
        (.byId ((missOf (loadEmbeddingCache cacheEnabled store pid pmodel pkey
            (chunks.map (fun c => c.hash))) chunks 0).map
          (fun it => (hashText (customIdSeed source entryPath it.2 it.1), f it.2.text))))
        chunks).embeddings =
      chunks.map (expectedVec (loadEmbeddingCache cacheEnabled store pid pmodel pkey
        (chunks.map (fun c => c.hash))) f)) ∧
    ((embedChunksWithGeminiBatch hashText pid pmodel pkey cacheEnabled now
        store entryPath source
        (.byId ((missOf (loadEmbeddingCache cacheEnabled store pid pmodel pkey
            (chunks.map (fun c => c.hash))) chunks 0).map
          (fun it => (hashText (customIdSeed source entryPath it.2 it.1), f it.2.text))))
        chunks).embeddings =
      chunks.map (expectedVec (loadEmbeddingCache cacheEnabled store pid pmodel pkey
        (chunks.map (fun c => c.hash))) f)) ∧
    ((embedChunksWithOpenAiBatch hashText pid pmodel pkey openAiModel cacheEnabled now
        store entryPath source
        (.positional ((embedChunksInBatches pid pmodel pkey cacheEnabled
          (fun ts => ts.map f) now store chunks).embeddings))
        chunks).embeddings =
      chunks.map (expectedVec (loadEmbeddingCache cacheEnabled store pid pmodel pkey
        (chunks.map (fun c => c.hash))) f)) ∧
    ((embedChunksWithGeminiBatch hashText pid pmodel pkey cacheEnabled now
        store entryPath source
        (.positional ((embedChunksInBatches pid pmodel pkey cacheEnabled
          (fun ts => ts.map f) now store chunks).embeddings))
        chunks).embeddings =
      chunks.map (expectedVec (loadEmbeddingCache cacheEnabled store pid pmodel pkey
        (chunks.map (fun c => c.hash))) f)) := by
  have hinline := embedChunksInBatches_eq_map pid pmodel pkey cacheEnabled f now store chunks
  have hbyid : ∀ (emb : List Vec),
      reconcileLoop ((missOf (loadEmbeddingCache cacheEnabled store pid pmodel pkey
          (chunks.map (fun c => c.hash))) chunks 0).map
        (fun item => (hashText (customIdSeed source entryPath item.2 item.1),
          (item.1, item.2.hash))))
        ((missOf (loadEmbeddingCache cacheEnabled store pid pmodel pkey
          (chunks.map (fun c => c.hash))) chunks 0).map
          (fun it => (hashText (customIdSeed source entryPath it.2 it.1), f it.2.text)))
        emb =
      (setMany emb (missUpdates f (missOf (loadEmbeddingCache cacheEnabled store pid
          pmodel pkey (chunks.map (fun c => c.hash))) chunks 0)),
       cacheUpdates f (missOf (loadEmbeddingCache cacheEnabled store pid pmodel pkey
          (chunks.map (fun c => c.hash))) chunks 0)) :=
    fun emb => reconcile_missing hashText source entryPath f
      (missOf (loadEmbeddingCache cacheEnabled store pid pmodel pkey
        (chunks.map (fun c => c.hash))) chunks 0) hnodup emb
  refine ⟨hinline, by rw [hinline]; simp, fun hst => by simp [embedChunksForFile, hst],
    ?_, ?_, ?_, ?_⟩
  · -- OpenAI, by-id map
    unfold embedChunksWithOpenAiBatch
    by_cases hz : chunks.length = 0
    · rw [if_pos hz]
      have : chunks = [] := List.eq_nil_of_length_eq_zero hz
      subst this
      rfl
    · rw [if_neg hz]
      have hsnd : (classifyGo (loadEmbeddingCache cacheEnabled store pid pmodel pkey
          (chunks.map (fun c => c.hash))) chunks 0
          (List.replicate chunks.length []) []).2 =
          missOf (loadEmbeddingCache cacheEnabled store pid pmodel pkey
            (chunks.map (fun c => c.hash))) chunks 0 := by
        rw [classifyGo_snd]; simp
      by_cases hm : (classifyGo (loadEmbeddingCache cacheEnabled store pid pmodel pkey
          (chunks.map (fun c => c.hash))) chunks 0
          (List.replicate chunks.length []) []).2.length = 0
      · rw [if_pos hm]
        have hmnil : missOf (loadEmbeddingCache cacheEnabled store pid pmodel pkey
            (chunks.map (fun c => c.hash))) chunks 0 = [] := by
          rw [← hsnd]
          exact List.eq_nil_of_length_eq_zero hm
        exact classify_fst_no_miss _ f chunks hmnil
      · rw [if_neg hm]
        simp only [hsnd]
        rw [hbyid]
        simp only []
        rw [classifyGo_fst]
        exact setMany_classify _ f chunks
  · -- Gemini, by-id map
    unfold embedChunksWithGeminiBatch
    by_cases hz : chunks.length = 0
    · rw [if_pos hz]
      have : chunks = [] := List.eq_nil_of_length_eq_zero hz
      subst this
      rfl
    · rw [if_neg hz]
      have hsnd : (classifyGo (loadEmbeddingCache cacheEnabled store pid pmodel pkey
          (chunks.map (fun c => c.hash))) chunks 0
          (List.replicate chunks.length []) []).2 =
          missOf (loadEmbeddingCache cacheEnabled store pid pmodel pkey
            (chunks.map (fun c => c.hash))) chunks 0 := by
        rw [classifyGo_snd]; simp
      by_cases hm : (classifyGo (loadEmbeddingCache cacheEnabled store pid pmodel pkey
          (chunks.map (fun c => c.hash))) chunks 0
          (List.replicate chunks.length []) []).2.length = 0
      · rw [if_pos hm]
        have hmnil : missOf (loadEmbeddingCache cacheEnabled store pid pmodel pkey
            (chunks.map (fun c => c.hash))) chunks 0 = [] := by
          rw [← hsnd]
          exact List.eq_nil_of_length_eq_zero hm
        exact classify_fst_no_miss _ f chunks hmnil
      · rw [if_neg hm]
        simp only [hsnd]
        rw [hbyid]
        simp only []
        rw [classifyGo_fst]
        exact setMany_classify _ f chunks
  · -- OpenAI, positional fallback array
    unfold embedChunksWithOpenAiBatch
    by_cases hz : chunks.length = 0
    · rw [if_pos hz]
      have : chunks = [] := List.eq_nil_of_length_eq_zero hz
      subst this
      rfl
    · rw [if_neg hz]
      by_cases hm : (classifyGo (loadEmbeddingCache cacheEnabled store pid pmodel pkey
          (chunks.map (fun c => c.hash))) chunks 0
          (List.replicate chunks.length []) []).2.length = 0
      · rw [if_pos hm]
        refine classify_fst_no_miss _ f chunks ?_
        have hsnd : (classifyGo (loadEmbeddingCache cacheEnabled store pid pmodel pkey
            (chunks.map (fun c => c.hash))) chunks 0
            (List.replicate chunks.length []) []).2 =
            missOf (loadEmbeddingCache cacheEnabled store pid pmodel pkey
              (chunks.map (fun c => c.hash))) chunks 0 := by
          rw [classifyGo_snd]; simp
        rw [← hsnd]
        exact List.eq_nil_of_length_eq_zero hm
      · rw [if_neg hm]
        simp only []
        exact hinline
  · -- Gemini, positional fallback array
    unfold embedChunksWithGeminiBatch
    by_cases hz : chunks.length = 0
    · rw [if_pos hz]
      have : chunks = [] := List.eq_nil_of_length_eq_zero hz
      subst this
      rfl
    · rw [if_neg hz]
      by_cases hm : (classifyGo (loadEmbeddingCache cacheEnabled store pid pmodel pkey
          (chunks.map (fun c => c.hash))) chunks 0
          (List.replicate chunks.length []) []).2.length = 0
      · rw [if_pos hm]
        refine classify_fst_no_miss _ f chunks ?_
        have hsnd : (classifyGo (loadEmbeddingCache cacheEnabled store pid pmodel pkey
            (chunks.map (fun c => c.hash))) chunks 0
            (List.replicate chunks.length []) []).2 =
            missOf (loadEmbeddingCache cacheEnabled store pid pmodel pkey
              (chunks.map (fun c => c.hash))) chunks 0 := by
          rw [classifyGo_snd]; simp
        rw [← hsnd]
        exact List.eq_nil_of_length_eq_zero hm
      · rw [if_neg hm]
        simp only []
        exact hinline

/-- Witness for C1: one chunk, empty store, identity `hashText`. -/
theorem embedChunks_length_and_order_witness :
    ((embedChunksInBatches "openai" "te3" "k1" true
        (fun ts => ts.map (fun s => [(s.length : Int)])) 10 []
        [⟨"a", "h1", 1, 2⟩]).embeddings =
      ([⟨"a", "h1", 1, 2⟩] : List MemoryChunk).map
        (expectedVec (loadEmbeddingCache true [] "openai" "te3" "k1"
          (([⟨"a", "h1", 1, 2⟩] : List MemoryChunk).map (fun c => c.hash)))
          (fun s => [(s.length : Int)]))) ∧
    ((embedChunksInBatches "openai" "te3" "k1" true
        (fun ts => ts.map (fun s => [(s.length : Int)])) 10 []
        [⟨"a", "h1", 1, 2⟩]).embeddings.length =
      ([⟨"a", "h1", 1, 2⟩] : List MemoryChunk).length) ∧
    ((⟨false, 0, none, none⟩ : BatchState).batchEnabled = false →
      embedChunksForFile ⟨false, 0, none, none⟩ id "openai" "te3" "k1" "te3" true false
          true (fun ts => ts.map (fun s => [(s.length : Int)])) 10 [] "p" "memory"
          (.positional []) (.positional []) [⟨"a", "h1", 1, 2⟩] =
        (embedChunksInBatches "openai" "te3" "k1" true
          (fun ts => ts.map (fun s => [(s.length : Int)])) 10 []
          [⟨"a", "h1", 1, 2⟩]).embeddings) ∧
    ((embedChunksWithOpenAiBatch id "openai" "te3" "k1" "te3" true 10 [] "p" "memory"
        (.byId ((missOf (loadEmbeddingCache true [] "openai" "te3" "k1"
            (([⟨"a", "h1", 1, 2⟩] : List MemoryChunk).map (fun c => c.hash)))
            [⟨"a", "h1", 1, 2⟩] 0).map
          (fun it => (id (customIdSeed "memory" "p" it.2 it.1),
            (fun s => [(s.length : Int)]) it.2.text))))
        [⟨"a", "h1", 1, 2⟩]).embeddings =
      ([⟨"a", "h1", 1, 2⟩] : List MemoryChunk).map
        (expectedVec (loadEmbeddingCache true [] "openai" "te3" "k1"
          (([⟨"a", "h1", 1, 2⟩] : List MemoryChunk).map (fun c => c.hash)))
          (fun s => [(s.length : Int)]))) ∧
    ((embedChunksWithGeminiBatch id "openai" "te3" "k1" true 10 [] "p" "memory"
        (.byId ((missOf (loadEmbeddingCache true [] "openai" "te3" "k1"
            (([⟨"a", "h1", 1, 2⟩] : List MemoryChunk).map (fun c => c.hash)))
            [⟨"a", "h1", 1, 2⟩] 0).map
          (fun it => (id (customIdSeed "memory" "p" it.2 it.1),
            (fun s => [(s.length : Int)]) it.2.text))))
        [⟨"a", "h1", 1, 2⟩]).embeddings =
      ([⟨"a", "h1", 1, 2⟩] : List MemoryChunk).map
        (expectedVec (loadEmbeddingCache true [] "openai" "te3" "k1"
          (([⟨"a", "h1", 1, 2⟩] : List MemoryChunk).map (fun c => c.hash)))
          (fun s => [(s.length : Int)]))) ∧
    ((embedChunksWithOpenAiBatch id "openai" "te3" "k1" "te3" true 10 [] "p" "memory"
        (.positional ((embedChunksInBatches "openai" "te3" "k1" true
          (fun ts => ts.map (fun s => [(s.length : Int)])) 10 []
          [⟨"a", "h1", 1, 2⟩]).embeddings))
        [⟨"a", "h1", 1, 2⟩]).embeddings =
      ([⟨"a", "h1", 1, 2⟩] : List MemoryChunk).map
        (expectedVec (loadEmbeddingCache true [] "openai" "te3" "k1"
          (([⟨"a", "h1", 1, 2⟩] : List MemoryChunk).map (fun c => c.hash)))
          (fun s => [(s.length : Int)]))) ∧
    ((embedChunksWithGeminiBatch id "openai" "te3" "k1" true 10 [] "p" "memory"
        (.positional ((embedChunksInBatches "openai" "te3" "k1" true
          (fun ts => ts.map (fun s => [(s.length : Int)])) 10 []
          [⟨"a", "h1", 1, 2⟩]).embeddings))
        [⟨"a", "h1", 1, 2⟩]).embeddings =
      ([⟨"a", "h1", 1, 2⟩] : List MemoryChunk).map
        (expectedVec (loadEmbeddingCache true [] "openai" "te3" "k1"
          (([⟨"a", "h1", 1, 2⟩] : List MemoryChunk).map (fun c => c.hash)))
          (fun s => [(s.length : Int)]))) :=
  embedChunks_length_and_order "openai" "te3" "k1" true (fun s => [(s.length : Int)])
    10 [] [⟨"a", "h1", 1, 2⟩] id "te3" "p" "memory" ⟨false, 0, none, none⟩ true false
    (.positional []) (.positional []) (by decide)

/-- Witness for C4 at a concrete two-chunk input. -/
theorem buildEmbeddingBatches_spec_witness :
    (buildEmbeddingBatches [⟨"a", "h1", 1, 2⟩, ⟨"b", "h2", 3, 4⟩]).flatten =
        [⟨"a", "h1", 1, 2⟩, ⟨"b", "h2", 3, 4⟩] ∧
    (∀ b ∈ buildEmbeddingBatches [⟨"a", "h1", 1, 2⟩, ⟨"b", "h2", 3, 4⟩], GoodBin b) ∧
    (∀ b ∈ buildEmbeddingBatches [⟨"a", "h1", 1, 2⟩, ⟨"b", "h2", 3, 4⟩], ∀ c ∈ b,
      EMBEDDING_BATCH_MAX_TOKENS < estimateEmbeddingTokens c.text → b = [c]) :=
  buildEmbeddingBatches_spec [⟨"a", "h1", 1, 2⟩, ⟨"b", "h2", 3, 4⟩]

end Clawdbot
